import Mathlib

/-!
MastodonUtils: a verification development.

Shallow embedding of `src/utils/MastodonUtils.C` and `include/utils/MastodonUtils.h`.

* `Real` (a C++ `double`) is idealised as an element of a linearly ordered field `F`
  (exact arithmetic); the definitions are generic in `F`, so they run on `ℚ` and the
  theorems hold on `ℝ` as well.
* `std::vector<Real>` is a `List F`; an indexed read `v[i]` is `rd v i`, which yields
  `Fault.outOfBounds` when `i` is not a valid index (undefined behaviour in C++).
* `mooseError(msg)` is `Fault.mooseError msg`.
* A `while` loop whose trip count is not known beforehand takes a fuel argument and
  yields `Fault.outOfFuel` when the fuel is used up.
* `math.h` functions without a rational counterpart (`log10`, `pow(10.0, ·)`, `sqrt`)
  are parameters of the functions that call them.
-/

namespace MastodonUtils

/-- Ways in which a call can fail to return a value. -/
inductive Fault where
  | outOfBounds : Fault
  | mooseError : String → Fault
  | outOfFuel : Fault
  deriving DecidableEq, Repr

deriving instance DecidableEq for Except

/-- Indexed read `v[i]` of a `std::vector`. -/
def rd {F : Type} (v : List F) (i : Nat) : Except Fault F :=
  match v[i]? with
  | some x => Except.ok x
  | none => Except.error Fault.outOfBounds

/-! ## regularize -/

/-- Local variables of `regularize` that the loops update. -/
structure RegState (F : Type) where
  reg_acc : List F
  reg_tme : List F
  cur_tme : F

/-- The inner `while` loop of `regularize` (lines 62-70) for the segment `i`. -/
def regularizeWhile {F : Type} [LinearOrderedField F] (history_acc history_time : List F)
    (reg_dt : F) (i : Nat) : Nat → RegState F → Except Fault (RegState F)
  | 0, _ => Except.error Fault.outOfFuel
  | fuel + 1, st => do
    let ti ← rd history_time i
    if st.cur_tme ≥ ti then
      let ti1 ← rd history_time (i + 1)
      if st.cur_tme ≤ ti1 then
        let ai ← rd history_acc i
        let ai1 ← rd history_acc (i + 1)
        let cur_acc := ai + (st.cur_tme - ti) / (ti1 - ti) * (ai1 - ai)
        regularizeWhile history_acc history_time reg_dt i fuel
          { reg_acc := st.reg_acc ++ [cur_acc]
            reg_tme := st.reg_tme ++ [st.cur_tme]
            cur_tme := st.cur_tme + reg_dt }
      else pure st
    else pure st

/-- `MastodonUtils::regularize` (lines 51-73). The result is `{reg_tme, reg_acc}`.
The loop bound `history_time.size() - 1` is only evaluated after `history_time[0]`
has been read, so it does not wrap. Every `while` loop gets `fuel` iterations. -/
def regularize {F : Type} [LinearOrderedField F] (fuel : Nat)
    (history_acc history_time : List F) (reg_dt : F) : Except Fault (List (List F)) := do
  let t0 ← rd history_time 0
  let st ← (List.range (history_time.length - 1)).foldlM
    (fun st i => regularizeWhile history_acc history_time reg_dt i fuel st)
    ({ reg_acc := [], reg_tme := [], cur_tme := t0 } : RegState F)
  pure [st.reg_tme, st.reg_acc]

/-! ## responseSpectrum -/

/-- Oscillator variables carried by the inner loop of `responseSpectrum`
(`dis1`, `vel1`, `acc1`, `pdmax`). -/
structure OscState (F : Type) where
  dis1 : F
  vel1 : F
  acc1 : F
  pdmax : F

/-- Body of the inner loop of `responseSpectrum` (lines 33-42) for the sample
`a = history_acc[j]`. -/
def oscStep {F : Type} [LinearOrderedField F] (om_d reg_dt dt2 kd : F)
    (st : OscState F) (a : F) : OscState F :=
  let dis2 := ((1 + om_d * reg_dt) * st.dis1 + (reg_dt + 1 / 2 * om_d * dt2) * st.vel1 +
      dt2 / 4 * st.acc1 - dt2 / 4 * a) / kd
  let acc2 := 4 / dt2 * (dis2 - st.dis1) - 4 / reg_dt * st.vel1 - st.acc1
  let vel2 := st.vel1 + reg_dt / 2 * (st.acc1 + acc2)
  { dis1 := dis2
    vel1 := vel2
    acc1 := acc2
    pdmax := if |dis2| > st.pdmax then |dis2| else st.pdmax }

/-- Lines 24-43 of `responseSpectrum` for one frequency bin: the constants derived from
`om_n`, the start values, and the loop over `samples`; `h0` is `history_acc[0]`. -/
def oscIntegrate {F : Type} [LinearOrderedField F] (om_n xi reg_dt h0 : F)
    (samples : List F) : OscState F :=
  let om_d := om_n * xi
  let dis1 : F := 0
  let vel1 : F := 0
  let dt2 := reg_dt * reg_dt
  let pdmax : F := 0
  let acc1 := -1 * h0 - 2 * om_d * vel1 - om_n * om_n * dis1
  let kd := 1 + om_d * reg_dt + dt2 * om_n * om_n / 4
  samples.foldl (oscStep om_d reg_dt dt2 kd)
    { dis1 := dis1, vel1 := vel1, acc1 := acc1, pdmax := pdmax }

/-- The four result vectors of `responseSpectrum` while they are being filled. -/
structure SpecState (F : Type) where
  freq_vec : List F
  aspec_vec : List F
  vspec_vec : List F
  dspec_vec : List F

/-- Body of the outer loop of `responseSpectrum` (lines 19-46) for the bin `n`.
`log10` and `pow10 y = pow(10.0, y)` are the `math.h` functions. The literal `3.141593`
is written as a fraction. `freq_num - 1` is evaluated only for `n < freq_num`, so it does
not wrap. -/
def spectrumBin {F : Type} [LinearOrderedField F] (log10 pow10 : F → F)
    (freq_start freq_end : F) (freq_num : Nat) (history_acc : List F) (xi reg_dt : F)
    (st : SpecState F) (n : Nat) : Except Fault (SpecState F) := do
  let logdf := (log10 freq_end - log10 freq_start) / ((freq_num - 1 : Nat) : F)
  let freq_vec := st.freq_vec ++ [pow10 (log10 freq_start + (n : F) * logdf)]
  let fn ← rd freq_vec n
  let om_n := 2 * (3141593 / 1000000) * fn
  let h0 ← rd history_acc 0
  let fin := oscIntegrate om_n xi reg_dt h0 history_acc
  pure { freq_vec := freq_vec
         dspec_vec := st.dspec_vec ++ [fin.pdmax]
         vspec_vec := st.vspec_vec ++ [fin.pdmax * om_n]
         aspec_vec := st.aspec_vec ++ [fin.pdmax * om_n * om_n] }

/-- `MastodonUtils::responseSpectrum` (lines 7-49); the result is
`{freq_vec, dspec_vec, vspec_vec, aspec_vec}`. -/
def responseSpectrum {F : Type} [LinearOrderedField F] (log10 pow10 : F → F)
    (freq_start freq_end : F) (freq_num : Nat) (history_acc : List F) (xi reg_dt : F) :
    Except Fault (List (List F)) := do
  let st ← (List.range freq_num).foldlM
    (spectrumBin log10 pow10 freq_start freq_end freq_num history_acc xi reg_dt)
    ({ freq_vec := [], aspec_vec := [], vspec_vec := [], dspec_vec := [] } : SpecState F)
  pure [st.freq_vec, st.dspec_vec, st.vspec_vec, st.aspec_vec]

/-- Frequency of bin `n`, as line 21-22 computes it. -/
def binFreq {F : Type} [LinearOrderedField F] (log10 pow10 : F → F)
    (freq_start freq_end : F) (freq_num : Nat) (n : Nat) : F :=
  pow10 (log10 freq_start +
    (n : F) * ((log10 freq_end - log10 freq_start) / ((freq_num - 1 : Nat) : F)))

/-- Angular frequency `om_n` of bin `n`, as line 23 computes it. -/
def binOmega {F : Type} [LinearOrderedField F] (log10 pow10 : F → F)
    (freq_start freq_end : F) (freq_num : Nat) (n : Nat) : F :=
  2 * (3141593 / 1000000) * binFreq log10 pow10 freq_start freq_end freq_num n

/-- Oscillator displacement `dis2` of bin `n` after the sample `j` has been processed. -/
def binDis {F : Type} [LinearOrderedField F] (log10 pow10 : F → F)
    (freq_start freq_end : F) (freq_num : Nat) (history_acc : List F) (xi reg_dt : F)
    (n j : Nat) : F :=
  (oscIntegrate (binOmega log10 pow10 freq_start freq_end freq_num n) xi reg_dt
    (history_acc.headD 0) (history_acc.take (j + 1))).dis1

/-- Peak displacement `pdmax` of bin `n` after the whole history. -/
def binPdmax {F : Type} [LinearOrderedField F] (log10 pow10 : F → F)
    (freq_start freq_end : F) (freq_num : Nat) (history_acc : List F) (xi reg_dt : F)
    (n : Nat) : F :=
  (oscIntegrate (binOmega log10 pow10 freq_start freq_end freq_num n) xi reg_dt
    (history_acc.headD 0) history_acc).pdmax

/-- Oscillator state of bin `n` when `j` samples have been processed (`j = 0`: the start
values of lines 25-29). -/
def binState {F : Type} [LinearOrderedField F] (log10 pow10 : F → F)
    (freq_start freq_end : F) (freq_num : Nat) (history_acc : List F) (xi reg_dt : F)
    (n j : Nat) : OscState F :=
  oscIntegrate (binOmega log10 pow10 freq_start freq_end freq_num n) xi reg_dt
    (history_acc.headD 0) (history_acc.take j)

/-- The oscillator state `st` with displacement, velocity and acceleration multiplied by
`c` and the peak multiplied by `|c|`. -/
def OscState.scale {F : Type} [LinearOrderedField F] (c : F) (st : OscState F) : OscState F :=
  { dis1 := c * st.dis1
    vel1 := c * st.vel1
    acc1 := c * st.acc1
    pdmax := |c| * st.pdmax }

/-! ## Statistics -/

/-- Subtraction of two `std::size_t` values (64 bit, wrapping). -/
def sizeSub (a b : Nat) : Nat :=
  if b ≤ a then a - b else a + 2 ^ 64 - b

/-- The copy of `vector` after `std::sort`: ascending order. -/
def sortAsc {F : Type} [LinearOrderedField F] (vector : List F) : List F :=
  vector.insertionSort (· ≤ ·)

/-- `MastodonUtils::mean` (lines 111-116): `std::accumulate` from `0.0`, divided by the
size. -/
def mean {F : Type} [LinearOrderedField F] (vector : List F) : F :=
  vector.foldl (fun sum x => sum + x) 0 / (vector.length : F)

/-- `MastodonUtils::median` (lines 118-134). -/
def median {F : Type} [LinearOrderedField F] (vector : List F) (interpolation : String) :
    Except Fault F :=
  let sorted_vector := sortAsc vector
  if sorted_vector.length % 2 ≠ 0 then
    rd sorted_vector (sizeSub sorted_vector.length 1 / 2)
  else if interpolation = "linear" then do
    let hi ← rd sorted_vector (sorted_vector.length / 2)
    let lo ← rd sorted_vector (sizeSub (sorted_vector.length / 2) 1)
    pure ((hi + lo) / 2)
  else if interpolation = "lower" then
    rd sorted_vector (sizeSub (sorted_vector.length / 2) 1)
  else if interpolation = "higher" then
    rd sorted_vector (sorted_vector.length / 2)
  else
    Except.error (Fault.mooseError "Invalid interpolation type in median calculation.")

/-- `MastodonUtils::percentile` (lines 136-164). `floor` is `Int.floor`; once `percent`
has passed the range check, `fmod(x, 1.0)` is the fractional part of `x >= 0` and
`floor(x) - 1` is not negative where it is converted to `std::size_t`. -/
def percentile {F : Type} [LinearOrderedField F] [FloorRing F] (vector : List F)
    (percent : F) (interpolation : String) : Except Fault F :=
  let sorted_vector := sortAsc vector
  if percent < 0 ∨ percent > 100 then
    Except.error (Fault.mooseError "Percent should be between 0 and 100.\n")
  else
    let low_index : Nat :=
      if ⌊percent / 100 * (sorted_vector.length : F)⌋ = 0 then 0
      else (⌊percent / 100 * (sorted_vector.length : F)⌋ - 1).toNat
    if interpolation = "lower" then
      rd sorted_vector low_index
    else if interpolation = "higher" then
      rd sorted_vector (low_index + 1)
    else if interpolation = "linear" then do
      let index_remainder := Int.fract (percent / 100 * (sorted_vector.length : F))
      let lo ← rd sorted_vector low_index
      let hi ← rd sorted_vector (low_index + 1)
      pure (lo + index_remainder * (hi - lo))
    else
      Except.error (Fault.mooseError "Invalid interpolation type in percentile calculation.")

/-- `MastodonUtils::standardDeviation` (lines 166-176); `sqrt` is the `math.h` function.
The divisor `vector.size() - 1` is `std::size_t` arithmetic. The quotient is the one of the
field, which is the code's quotient whenever the divisor is not 0; the case of a zero
divisor (a one-element vector) is made explicit in `standardDeviationChecked`. -/
def standardDeviation {F : Type} [LinearOrderedField F] (sqrt : F → F) (vector : List F) : F :=
  let sum := vector.foldl
    (fun sum x => sum + (x - mean vector) * (x - mean vector)) 0
  sqrt (sum / (sizeSub vector.length 1 : F))

/-- `MastodonUtils::isNegativeOrZero` (lines 102-109): stops at the first element
that is `<= 0`. -/
def isNegativeOrZero {F : Type} [LinearOrderedField F] : List F → Bool
  | [] => false
  | element :: rest => if element ≤ 0 then true else isNegativeOrZero rest

/-- `MastodonUtils::lognormalStandardDeviation` (lines 178-187); `log` and `sqrt` are the
`math.h` functions. -/
def lognormalStandardDeviation {F : Type} [LinearOrderedField F] (log sqrt : F → F)
    (vector : List F) : Except Fault F :=
  if isNegativeOrZero vector then
    Except.error (Fault.mooseError
      "One or more elements in the sample for calculating beta are non positive.\n")
  else
    let logvector := vector.map log
    pure (standardDeviation sqrt logvector)

/-- Modelled from the spec: `MooseUtils::absoluteFuzzyEqual` belongs to the MOOSE framework,
not to this repository; it holds when `|var1 - var2| <= tol`. -/
def absoluteFuzzyEqual {F : Type} [LinearOrderedField F] (var1 var2 tol : F) : Bool :=
  decide (|var1 - var2| ≤ tol)

/-- The loop of `checkEqual` (lines 93-98), run over two vectors of the same size. -/
def checkEqualLoop {F : Type} [LinearOrderedField F] (percent_error : F) :
    List F → List F → Bool
  | x :: xs, y :: ys =>
    if !absoluteFuzzyEqual x y |x * percent_error / 100| then false
    else checkEqualLoop percent_error xs ys
  | _, _ => true

/-- `MastodonUtils::checkEqual` (lines 86-100). -/
def checkEqual {F : Type} [LinearOrderedField F] (vector1 vector2 : List F)
    (percent_error : F) : Bool :=
  if vector1.length ≠ vector2.length then false
  else checkEqualLoop percent_error vector1 vector2

/-- The loop of `zeropad` (lines 194-197): `count` times `pad += "0"`. -/
def zeropadLoop : Nat → String → String
  | 0, pad => pad
  | count + 1, pad => zeropadLoop count (pad ++ "0")

/-- `MastodonUtils::zeropad` (lines 189-199). `std::to_string` of an unsigned value is its
decimal representation, `Nat.repr`; the pad count is `std::size_t` arithmetic. -/
def zeropad (n n_tot : Nat) : String :=
  let zeropadsize := sizeSub (Nat.repr n_tot).length (Nat.repr n).length
  let pad := zeropadLoop zeropadsize ""
  pad ++ Nat.repr n

/-- Value of a string of decimal digits, most significant digit first. -/
def parseDecimal (s : String) : Nat :=
  s.data.foldl (fun value c => value * 10 + (c.toNat - 48)) 0

/-! ## greaterProbability -/

/-- The loop of `greaterProbability` (lines 106-114); `pdf_demand x` is
`boost::math::pdf(demand_distribution, x)` and `cdf_capacity x` is
`boost::math::cdf(capacity_distribution, x)`. -/
def greaterProbabilityWhile {F : Type} [LinearOrderedField F] (pdf_demand cdf_capacity : F → F)
    (delta max_demand : F) : Nat → F → F → Except Fault F
  | 0, _, _ => Except.error Fault.outOfFuel
  | fuel + 1, prob, param =>
    if param < max_demand then
      let p_1 := pdf_demand param * cdf_capacity param
      let p_2 := pdf_demand (param + delta) * cdf_capacity (param + delta)
      greaterProbabilityWhile pdf_demand cdf_capacity delta max_demand fuel
        (prob + delta * (p_1 + p_2) / 2) (param + delta)
    else pure prob

/-- `MastodonUtils::greaterProbability` (header, lines 94-116) for a distribution type `D`.
The `boost::math` functions `quantile`, `pdf`, `cdf` and `median` are parameters; the
`while` loop gets `fuel` iterations. -/
def greaterProbability {D F : Type} [LinearOrderedField F] (quantile pdf cdf : D → F → F)
    (median_of : D → F) (fuel : Nat) (demand_distribution capacity_distribution : D) :
    Except Fault F :=
  let min_demand := quantile demand_distribution (1 / 1000)
  let max_demand := quantile demand_distribution (999 / 1000)
  let prob : F := 0
  let param := min_demand
  let delta := median_of demand_distribution / 1000
  greaterProbabilityWhile (pdf demand_distribution) (cdf capacity_distribution) delta
    max_demand fuel prob param

/-- What holds of the local variables of `regularize` between two loop iterations:
`t0` is `history_time[0]`. -/
structure RegInv {F : Type} [LinearOrderedField F] (history_acc history_time : List F)
    (reg_dt t0 : F) (st : RegState F) : Prop where
  len_eq : st.reg_tme.length = st.reg_acc.length
  cur_eq : st.cur_tme = t0 + (st.reg_tme.length : F) * reg_dt
  grid : ∀ k : Nat, k < st.reg_tme.length → st.reg_tme[k]? = some (t0 + (k : F) * reg_dt)
  interp : ∀ (k : Nat) (t a : F), st.reg_tme[k]? = some t → st.reg_acc[k]? = some a →
    ∃ (i : Nat) (ti ti1 ai ai1 : F), history_time[i]? = some ti ∧ history_time[i + 1]? = some ti1 ∧
      history_acc[i]? = some ai ∧ history_acc[i + 1]? = some ai1 ∧
      ti ≤ t ∧ t ≤ ti1 ∧ a = ai + (t - ti) / (ti1 - ti) * (ai1 - ai)

/-! ## Proofs: reads -/

theorem rd_eq_ok_iff {F : Type} (v : List F) (i : Nat) (x : F) :
    rd v i = Except.ok x ↔ v[i]? = some x := by
  unfold rd
  cases h : v[i]? <;> simp

theorem rd_of_lt {F : Type} (v : List F) (i : Nat) (h : i < v.length) :
    rd v i = Except.ok v[i] := by
  rw [rd_eq_ok_iff]; exact List.getElem?_eq_getElem h

/-! ## Proofs: regularize -/

section Regularize

variable {F : Type} [LinearOrderedField F]

/-- One pass of the `while` body: what the loop does when its condition holds. -/
theorem regularizeWhile_succ_of_cond (acc time : List F) (dt : F) (i fuel : Nat) (st : RegState F)
    (ti ti1 ai ai1 : F) (hti : time[i]? = some ti) (hti1 : time[i + 1]? = some ti1)
    (hai : acc[i]? = some ai) (hai1 : acc[i + 1]? = some ai1)
    (h1 : ti ≤ st.cur_tme) (h2 : st.cur_tme ≤ ti1) :
    regularizeWhile acc time dt i (fuel + 1) st =
      regularizeWhile acc time dt i fuel
        { reg_acc := st.reg_acc ++ [ai + (st.cur_tme - ti) / (ti1 - ti) * (ai1 - ai)]
          reg_tme := st.reg_tme ++ [st.cur_tme]
          cur_tme := st.cur_tme + dt } := by
  rw [regularizeWhile]
  simp [(rd_eq_ok_iff _ _ _).2 hti, (rd_eq_ok_iff _ _ _).2 hti1, (rd_eq_ok_iff _ _ _).2 hai,
    (rd_eq_ok_iff _ _ _).2 hai1, h1, h2, bind, Except.bind]

/-- The loop stops and leaves the state alone when its condition fails. -/
theorem regularizeWhile_succ_of_not_cond (acc time : List F) (dt : F) (i fuel : Nat)
    (st : RegState F) (ti ti1 : F) (hti : time[i]? = some ti) (hti1 : time[i + 1]? = some ti1)
    (h : ¬ (ti ≤ st.cur_tme ∧ st.cur_tme ≤ ti1)) :
    regularizeWhile acc time dt i (fuel + 1) st = Except.ok st := by
  rw [regularizeWhile]
  simp only [(rd_eq_ok_iff _ _ _).2 hti, (rd_eq_ok_iff _ _ _).2 hti1, bind, Except.bind, ge_iff_le]
  by_cases h1 : ti ≤ st.cur_tme
  · have h2 : ¬ st.cur_tme ≤ ti1 := fun h2 => h ⟨h1, h2⟩
    simp [h1, h2, pure, Except.pure]
  · simp [h1, pure, Except.pure]

/-- Appending one sample taken inside segment `i` keeps the invariant. -/
theorem RegInv.push (acc time : List F) (dt t0 : F) (st : RegState F) (i : Nat)
    (ti ti1 ai ai1 : F) (hti : time[i]? = some ti) (hti1 : time[i + 1]? = some ti1)
    (hai : acc[i]? = some ai) (hai1 : acc[i + 1]? = some ai1)
    (h1 : ti ≤ st.cur_tme) (h2 : st.cur_tme ≤ ti1) (hinv : RegInv acc time dt t0 st) :
    RegInv acc time dt t0
      { reg_acc := st.reg_acc ++ [ai + (st.cur_tme - ti) / (ti1 - ti) * (ai1 - ai)]
        reg_tme := st.reg_tme ++ [st.cur_tme]
        cur_tme := st.cur_tme + dt } := by
  obtain ⟨hl, hc, hg, hi⟩ := hinv
  refine ⟨by simp [hl], ?_, ?_, ?_⟩
  · simp only [List.length_append, List.length_singleton, Nat.cast_add, Nat.cast_one]
    rw [hc]; ring
  · intro k hk
    simp only [List.length_append, List.length_singleton] at hk
    rcases Nat.lt_succ_iff_lt_or_eq.1 hk with hk | hk
    · rw [List.getElem?_append_left hk]; exact hg k hk
    · subst hk
      simp [hc]
  · intro k t a ht ha
    simp only at ht ha
    by_cases hk : k < st.reg_tme.length
    · rw [List.getElem?_append_left hk] at ht
      rw [List.getElem?_append_left (hl ▸ hk)] at ha
      exact hi k t a ht ha
    · have hk1 : st.reg_tme.length ≤ k := Nat.le_of_not_lt hk
      have hk2 : st.reg_acc.length ≤ k := hl ▸ hk1
      rw [List.getElem?_append_right hk1] at ht
      rw [List.getElem?_append_right hk2] at ha
      have h0 : k - st.reg_tme.length = 0 := by
        by_contra hne
        obtain ⟨m, hm⟩ := Nat.exists_eq_succ_of_ne_zero hne
        rw [hm] at ht
        simp at ht
      rw [h0] at ht
      rw [← hl, h0] at ha
      simp only [List.getElem?_cons_zero, Option.some.injEq] at ht ha
      subst ht
      exact ⟨i, ti, ti1, ai, ai1, hti, hti1, hai, hai1, h1, h2, ha.symm⟩

/-- The `while` loop keeps the invariant and never drops a sample. -/
theorem regularizeWhile_inv (acc time : List F) (dt t0 : F) (i : Nat) :
    ∀ (fuel : Nat) (st st' : RegState F), RegInv acc time dt t0 st →
      regularizeWhile acc time dt i fuel st = Except.ok st' →
      RegInv acc time dt t0 st' ∧ st.reg_tme.length ≤ st'.reg_tme.length
  | 0, st, st', _, h => by simp [regularizeWhile] at h
  | fuel + 1, st, st', hinv, h => by
    rw [regularizeWhile] at h
    cases hti : rd time i with
    | error e => simp [hti, bind, Except.bind] at h
    | ok ti =>
      simp only [hti, bind, Except.bind, ge_iff_le] at h
      by_cases h1 : ti ≤ st.cur_tme
      · simp only [h1, if_true] at h
        cases hti1 : rd time (i + 1) with
        | error e => simp [hti1] at h
        | ok ti1 =>
          simp only [hti1] at h
          by_cases h2 : st.cur_tme ≤ ti1
          · simp only [h2, if_true] at h
            cases hai : rd acc i with
            | error e => simp [hai] at h
            | ok ai =>
              simp only [hai] at h
              cases hai1 : rd acc (i + 1) with
              | error e => simp [hai1] at h
              | ok ai1 =>
                simp only [hai1] at h
                have hpush := RegInv.push acc time dt t0 st i ti ti1 ai ai1
                  ((rd_eq_ok_iff _ _ _).1 hti) ((rd_eq_ok_iff _ _ _).1 hti1)
                  ((rd_eq_ok_iff _ _ _).1 hai) ((rd_eq_ok_iff _ _ _).1 hai1) h1 h2 hinv
                obtain ⟨hr, hle⟩ := regularizeWhile_inv acc time dt t0 i fuel _ st' hpush h
                refine ⟨hr, le_trans ?_ hle⟩
                simp
          · simp only [h2, if_false, pure, Except.pure, Except.ok.injEq] at h
            subst h
            exact ⟨hinv, le_refl _⟩
      · simp only [h1, if_false, pure, Except.pure, Except.ok.injEq] at h
        subst h
        exact ⟨hinv, le_refl _⟩

/-- More fuel does not change a result already reached. -/
theorem regularizeWhile_mono (acc time : List F) (dt : F) (i : Nat) :
    ∀ (fuel : Nat) (st st' : RegState F),
      regularizeWhile acc time dt i fuel st = Except.ok st' →
      ∀ fuel', fuel ≤ fuel' → regularizeWhile acc time dt i fuel' st = Except.ok st'
  | 0, st, st', h, _, _ => by simp [regularizeWhile] at h
  | fuel + 1, st, st', h, fuel', hle => by
    obtain ⟨m, rfl⟩ : ∃ m, fuel' = m + 1 := ⟨fuel' - 1, by omega⟩
    have hm : fuel ≤ m := by omega
    rw [regularizeWhile] at h ⊢
    cases hti : rd time i with
    | error e => simp [hti, bind, Except.bind] at h
    | ok ti =>
      simp only [hti, bind, Except.bind, ge_iff_le] at h ⊢
      by_cases h1 : ti ≤ st.cur_tme
      · simp only [h1, if_true] at h ⊢
        cases hti1 : rd time (i + 1) with
        | error e => simp [hti1] at h
        | ok ti1 =>
          simp only [hti1] at h ⊢
          by_cases h2 : st.cur_tme ≤ ti1
          · simp only [h2, if_true] at h ⊢
            cases hai : rd acc i with
            | error e => simp [hai] at h
            | ok ai =>
              simp only [hai] at h ⊢
              cases hai1 : rd acc (i + 1) with
              | error e => simp [hai1] at h
              | ok ai1 =>
                simp only [hai1] at h ⊢
                exact regularizeWhile_mono acc time dt i fuel _ st' h m hm
          · simp only [h2, if_false] at h ⊢
            exact h
      · simp only [h1, if_false] at h ⊢
        exact h

/-- The `while` loop stops: `m` steps of size `dt` leave the segment. -/
theorem regularizeWhile_terminates_aux (acc time : List F) (dt : F) (i : Nat)
    (ti ti1 ai ai1 : F) (hti : time[i]? = some ti) (hti1 : time[i + 1]? = some ti1)
    (hai : acc[i]? = some ai) (hai1 : acc[i + 1]? = some ai1) (hdt : 0 < dt) :
    ∀ (m : Nat) (st : RegState F), ti1 < st.cur_tme + (m : F) * dt →
      ∃ st', regularizeWhile acc time dt i (m + 1) st = Except.ok st'
  | 0, st, h => by
    refine ⟨st, regularizeWhile_succ_of_not_cond acc time dt i 0 st ti ti1 hti hti1 ?_⟩
    rintro ⟨_, h2⟩
    simp only [Nat.cast_zero, zero_mul, add_zero] at h
    exact absurd h2 (not_le.2 h)
  | m + 1, st, h => by
    by_cases hc : ti ≤ st.cur_tme ∧ st.cur_tme ≤ ti1
    · rw [regularizeWhile_succ_of_cond acc time dt i (m + 1) st ti ti1 ai ai1 hti hti1 hai hai1
        hc.1 hc.2]
      apply regularizeWhile_terminates_aux acc time dt i ti ti1 ai ai1 hti hti1 hai hai1 hdt m
      simp only
      have : st.cur_tme + ((m + 1 : Nat) : F) * dt = st.cur_tme + dt + (m : F) * dt := by
        push_cast; ring
      rw [← this]; exact h
    · exact ⟨st, regularizeWhile_succ_of_not_cond acc time dt i (m + 1) st ti ti1 hti hti1 hc⟩

/-- With a positive step and reads in range, enough fuel lets the `while` loop return. -/
theorem regularizeWhile_terminates [Archimedean F] (acc time : List F) (dt : F) (i : Nat)
    (hi : i + 1 < time.length) (hi' : i + 1 < acc.length) (hdt : 0 < dt) (st : RegState F) :
    ∃ N st', ∀ fuel, N ≤ fuel → regularizeWhile acc time dt i fuel st = Except.ok st' := by
  have hti : time[i]? = some time[i] := List.getElem?_eq_getElem (by omega)
  have hti1 : time[i + 1]? = some time[i + 1] := List.getElem?_eq_getElem hi
  have hai : acc[i]? = some acc[i] := List.getElem?_eq_getElem (by omega)
  have hai1 : acc[i + 1]? = some acc[i + 1] := List.getElem?_eq_getElem hi'
  obtain ⟨m, hm⟩ := exists_nat_gt ((time[i + 1] - st.cur_tme) / dt)
  have hlt : time[i + 1] < st.cur_tme + (m : F) * dt := by
    rw [div_lt_iff₀ hdt] at hm
    linarith
  obtain ⟨st', hst'⟩ := regularizeWhile_terminates_aux acc time dt i _ _ _ _ hti hti1 hai hai1
    hdt m st hlt
  exact ⟨m + 1, st', fun fuel hf => regularizeWhile_mono acc time dt i (m + 1) st st' hst' fuel hf⟩

/-- The `for` loop over segments keeps the invariant and never drops a sample. -/
theorem regularizeFor_inv (acc time : List F) (dt t0 : F) (fuel : Nat) :
    ∀ (is : List Nat) (st st' : RegState F), RegInv acc time dt t0 st →
      is.foldlM (fun st i => regularizeWhile acc time dt i fuel st) st = Except.ok st' →
      RegInv acc time dt t0 st' ∧ st.reg_tme.length ≤ st'.reg_tme.length
  | [], st, st', hinv, h => by
    simp only [List.foldlM, pure, Except.pure, Except.ok.injEq] at h
    subst h
    exact ⟨hinv, le_refl _⟩
  | i :: is, st, st', hinv, h => by
    rw [List.foldlM_cons] at h
    cases h1 : regularizeWhile acc time dt i fuel st with
    | error e => simp [h1, bind, Except.bind] at h
    | ok st1 =>
      simp only [h1, bind, Except.bind] at h
      obtain ⟨hinv1, hle1⟩ := regularizeWhile_inv acc time dt t0 i fuel st st1 hinv h1
      obtain ⟨hinv2, hle2⟩ := regularizeFor_inv acc time dt t0 fuel is st1 st' hinv1 h
      exact ⟨hinv2, le_trans hle1 hle2⟩

/-- More fuel does not change a result the `for` loop already reached. -/
theorem regularizeFor_mono (acc time : List F) (dt : F) (fuel fuel' : Nat) (hle : fuel ≤ fuel') :
    ∀ (is : List Nat) (st st' : RegState F),
      is.foldlM (fun st i => regularizeWhile acc time dt i fuel st) st = Except.ok st' →
      is.foldlM (fun st i => regularizeWhile acc time dt i fuel' st) st = Except.ok st'
  | [], st, st', h => by simpa [List.foldlM] using h
  | i :: is, st, st', h => by
    rw [List.foldlM_cons] at h ⊢
    cases h1 : regularizeWhile acc time dt i fuel st with
    | error e => simp [h1, bind, Except.bind] at h
    | ok st1 =>
      simp only [h1, bind, Except.bind] at h
      rw [regularizeWhile_mono acc time dt i fuel st st1 h1 fuel' hle]
      exact regularizeFor_mono acc time dt fuel fuel' hle is st1 st' h

/-- With a positive step and all segment reads in range, enough fuel lets the `for` loop
return. -/
theorem regularizeFor_terminates [Archimedean F] (acc time : List F) (dt : F) (hdt : 0 < dt) :
    ∀ (is : List Nat), (∀ i ∈ is, i + 1 < time.length ∧ i + 1 < acc.length) →
      ∀ st : RegState F, ∃ N st', ∀ fuel, N ≤ fuel →
        is.foldlM (fun st i => regularizeWhile acc time dt i fuel st) st = Except.ok st'
  | [], _, st => ⟨0, st, fun _ _ => rfl⟩
  | i :: is, his, st => by
    obtain ⟨hi, hi'⟩ := his i (List.mem_cons_self _ _)
    obtain ⟨N1, st1, h1⟩ := regularizeWhile_terminates acc time dt i hi hi' hdt st
    obtain ⟨N2, st2, h2⟩ := regularizeFor_terminates acc time dt hdt is
      (fun j hj => his j (List.mem_cons_of_mem _ hj)) st1
    refine ⟨max N1 N2, st2, fun fuel hf => ?_⟩
    rw [List.foldlM_cons, h1 fuel (le_trans (le_max_left _ _) hf)]
    exact h2 fuel (le_trans (le_max_right _ _) hf)

/-- The empty start state satisfies the invariant. -/
theorem RegInv.init (acc time : List F) (dt t0 : F) :
    RegInv acc time dt t0 { reg_acc := [], reg_tme := [], cur_tme := t0 } :=
  ⟨rfl, by simp, fun k hk => by simp at hk, fun k t a ht _ => by simp at ht⟩

/-- Unfolding of `regularize` once `history_time[0]` is known. -/
theorem regularize_eq (acc time : List F) (dt t0 : F) (fuel : Nat) (ht0 : time[0]? = some t0) :
    regularize fuel acc time dt =
      ((List.range (time.length - 1)).foldlM
        (fun st i => regularizeWhile acc time dt i fuel st)
        ({ reg_acc := [], reg_tme := [], cur_tme := t0 } : RegState F)).map
        (fun st => [st.reg_tme, st.reg_acc]) := by
  unfold regularize
  rw [(rd_eq_ok_iff _ _ _).2 ht0]
  cases h : (List.range (time.length - 1)).foldlM
        (fun st i => regularizeWhile acc time dt i fuel st)
        ({ reg_acc := [], reg_tme := [], cur_tme := t0 } : RegState F) <;>
    simp [h, bind, Except.bind, Except.map, pure, Except.pure]

/-- Total correctness of `regularize` in terms of the loop invariant: on a valid input
there is a final loop state reached for every large enough fuel, it is the only state
ever returned, it satisfies the invariant, and it holds at least one sample. -/
theorem regularize_spec [Archimedean F] (acc time : List F) (dt t0 t1 : F)
    (hlen : acc.length = time.length) (ht0 : time[0]? = some t0) (ht1 : time[1]? = some t1)
    (h01 : t0 ≤ t1) (hdt : 0 < dt) :
    ∃ (N : Nat) (st : RegState F),
      (∀ fuel, N ≤ fuel → regularize fuel acc time dt = Except.ok [st.reg_tme, st.reg_acc]) ∧
      (∀ fuel r, regularize fuel acc time dt = Except.ok r → r = [st.reg_tme, st.reg_acc]) ∧
      RegInv acc time dt t0 st ∧ 1 ≤ st.reg_tme.length := by
  have hl1 : 1 < time.length := by
    rcases List.getElem?_eq_some.1 ht1 with ⟨h, _⟩
    exact h
  have hrange : ∀ i ∈ List.range (time.length - 1), i + 1 < time.length ∧ i + 1 < acc.length := by
    intro i hi
    rw [List.mem_range] at hi
    omega
  obtain ⟨N, st, hN⟩ := regularizeFor_terminates acc time dt hdt _ hrange
    ({ reg_acc := [], reg_tme := [], cur_tme := t0 } : RegState F)
  have hinv := regularizeFor_inv acc time dt t0 N _ _ st (RegInv.init acc time dt t0)
    (hN N (le_refl _))
  refine ⟨N, st, ?_, ?_, hinv.1, ?_⟩
  · intro fuel hf
    rw [regularize_eq acc time dt t0 fuel ht0, hN fuel hf]
    rfl
  · intro fuel r hr
    rw [regularize_eq acc time dt t0 fuel ht0] at hr
    cases hfold : (List.range (time.length - 1)).foldlM
        (fun st i => regularizeWhile acc time dt i fuel st)
        ({ reg_acc := [], reg_tme := [], cur_tme := t0 } : RegState F) with
    | error e => simp [hfold, Except.map] at hr
    | ok st2 =>
      simp only [hfold, Except.map, Except.ok.injEq] at hr
      have hmono := regularizeFor_mono acc time dt fuel (max fuel N) (le_max_left _ _) _ _ _ hfold
      rw [hN _ (le_max_right _ _)] at hmono
      simp only [Except.ok.injEq] at hmono
      rw [← hr, hmono]
  · have hfold := hN N (le_refl _)
    obtain ⟨n, hn⟩ : ∃ n, time.length - 1 = n + 1 := ⟨time.length - 2, by omega⟩
    rw [hn, List.range_succ_eq_map, List.foldlM_cons] at hfold
    cases h1 : regularizeWhile acc time dt 0 N
        ({ reg_acc := [], reg_tme := [], cur_tme := t0 } : RegState F) with
    | error e => simp [h1, bind, Except.bind] at hfold
    | ok st1 =>
      simp only [h1, bind, Except.bind] at hfold
      have hrest := regularizeFor_inv acc time dt t0 N _ st1 st
        (regularizeWhile_inv acc time dt t0 0 N _ st1 (RegInv.init acc time dt t0) h1).1 hfold
      refine le_trans ?_ hrest.2
      cases N with
      | zero => simp [regularizeWhile] at h1
      | succ f =>
        have ha0 : acc[0]? = some acc[0] := List.getElem?_eq_getElem (by omega)
        have ha1 : acc[0 + 1]? = some acc[0 + 1] := List.getElem?_eq_getElem (by omega)
        rw [regularizeWhile_succ_of_cond acc time dt 0 f _ t0 t1 _ _ ht0 ht1 ha0 ha1
          (le_refl _) h01] at h1
        have hpush := RegInv.push acc time dt t0
          ({ reg_acc := [], reg_tme := [], cur_tme := t0 } : RegState F) 0 t0 t1 _ _ ht0 ht1
          ha0 ha1 (le_refl _) h01 (RegInv.init acc time dt t0)
        have := (regularizeWhile_inv acc time dt t0 0 f _ st1 hpush h1).2
        simpa using this

/-- A strictly increasing vector read at two indices in order. -/
theorem sorted_lt_getElem? (time : List F) (hinc : time.Sorted (· < ·)) (i j : Nat) (a b : F)
    (hij : i < j) (ha : time[i]? = some a) (hb : time[j]? = some b) : a < b := by
  obtain ⟨hi, rfl⟩ := List.getElem?_eq_some.1 ha
  obtain ⟨hj, rfl⟩ := List.getElem?_eq_some.1 hb
  exact (List.pairwise_iff_getElem.1 hinc) i j hi hj hij

/-- C1. `regularize`, constant step: on every input with `len(accel) == len(time) >= 2`,
`time` strictly increasing and `dt > 0`, the call returns (for every large enough fuel, and
with one result only) two sequences `time_reg`, `accel_reg` of the same length, with
`time_reg[0] == time[0]`, consecutive entries of `time_reg` exactly `dt` apart everywhere,
and `time_reg` strictly increasing. -/
theorem regularize_constant_step [Archimedean F] (acc time : List F) (dt : F)
    (hlen : acc.length = time.length) (h2 : 2 ≤ time.length)
    (hinc : time.Sorted (· < ·)) (hdt : 0 < dt) :
    ∃ (N : Nat) (reg_tme reg_acc : List F),
      (∀ fuel, N ≤ fuel → regularize fuel acc time dt = Except.ok [reg_tme, reg_acc]) ∧
      (∀ fuel r, regularize fuel acc time dt = Except.ok r → r = [reg_tme, reg_acc]) ∧
      reg_tme.length = reg_acc.length ∧
      1 ≤ reg_tme.length ∧ reg_tme[0]? = time[0]? ∧
      (∀ (k : Nat) (a b : F), reg_tme[k]? = some a → reg_tme[k + 1]? = some b → b - a = dt) ∧
      reg_tme.Sorted (· < ·) := by
  have ht0 : time[0]? = some time[0] := List.getElem?_eq_getElem (by omega)
  have ht1 : time[1]? = some time[1] := List.getElem?_eq_getElem (by omega)
  have h01 : time[0] ≤ time[1] :=
    le_of_lt (sorted_lt_getElem? time hinc 0 1 _ _ Nat.zero_lt_one ht0 ht1)
  obtain ⟨N, st, hN, huniq, hinv, hpos⟩ :=
    regularize_spec acc time dt time[0] time[1] hlen ht0 ht1 h01 hdt
  refine ⟨N, st.reg_tme, st.reg_acc, hN, huniq, hinv.len_eq, hpos, ?_, ?_, ?_⟩
  · rw [hinv.grid 0 (by omega), ht0]; simp
  · intro k a b ha hb
    obtain ⟨hk1, _⟩ := List.getElem?_eq_some.1 hb
    rw [hinv.grid k (by omega)] at ha
    rw [hinv.grid (k + 1) hk1] at hb
    simp only [Option.some.injEq] at ha hb
    rw [← ha, ← hb]; push_cast; ring
  · rw [List.Sorted, List.pairwise_iff_getElem]
    intro i j hi hj hij
    have hgi := hinv.grid i hi
    have hgj := hinv.grid j hj
    rw [List.getElem?_eq_getElem hi] at hgi
    rw [List.getElem?_eq_getElem hj] at hgj
    simp only [Option.some.injEq] at hgi hgj
    rw [hgi, hgj]
    have : (i : F) < (j : F) := by exact_mod_cast hij
    nlinarith

/-- Witness for C1: the three-sample record `time = [0, 1, 3]`, `accel = [0, 2, 6]`
resampled at `dt = 1/2`. -/
theorem regularize_constant_step_witness :
    ∃ (N : Nat) (reg_tme reg_acc : List ℚ),
      (∀ fuel, N ≤ fuel →
        regularize fuel [0, 2, 6] [0, 1, 3] (1 / 2) = Except.ok [reg_tme, reg_acc]) ∧
      (∀ fuel r, regularize fuel [0, 2, 6] [0, 1, 3] (1 / 2) = Except.ok r →
        r = [reg_tme, reg_acc]) ∧
      reg_tme.length = reg_acc.length ∧
      1 ≤ reg_tme.length ∧ reg_tme[0]? = ([0, 1, 3] : List ℚ)[0]? ∧
      (∀ (k : Nat) (a b : ℚ), reg_tme[k]? = some a → reg_tme[k + 1]? = some b →
        b - a = 1 / 2) ∧
      reg_tme.Sorted (· < ·) :=
  regularize_constant_step [0, 2, 6] [0, 1, 3] (1 / 2) rfl (by decide)
    (by simp [List.Sorted]) (by norm_num)

/-- C2. `regularize`, interpolation: on every valid input each emitted sample
`(time_reg[k], accel_reg[k])` lies on the piecewise-linear interpolant of the input: some
segment `i` has `time[i] <= time_reg[k] <= time[i+1]` and `accel_reg[k]` is the value the
interpolation formula of the code gives there; the first emitted sample is exactly
`(time[0], accel[0])`. -/
theorem regularize_interpolation [Archimedean F] (acc time : List F) (dt : F)
    (hlen : acc.length = time.length) (h2 : 2 ≤ time.length)
    (hinc : time.Sorted (· < ·)) (hdt : 0 < dt) :
    ∃ (N : Nat) (reg_tme reg_acc : List F),
      (∀ fuel, N ≤ fuel → regularize fuel acc time dt = Except.ok [reg_tme, reg_acc]) ∧
      (∀ fuel r, regularize fuel acc time dt = Except.ok r → r = [reg_tme, reg_acc]) ∧
      reg_tme.length = reg_acc.length ∧
      (∀ (k : Nat) (t a : F), reg_tme[k]? = some t → reg_acc[k]? = some a →
        ∃ (i : Nat) (ti ti1 ai ai1 : F), time[i]? = some ti ∧ time[i + 1]? = some ti1 ∧
          acc[i]? = some ai ∧ acc[i + 1]? = some ai1 ∧
          ti ≤ t ∧ t ≤ ti1 ∧ a = ai + (t - ti) / (ti1 - ti) * (ai1 - ai)) ∧
      1 ≤ reg_tme.length ∧ reg_tme[0]? = time[0]? ∧ reg_acc[0]? = acc[0]? := by
  have ht0 : time[0]? = some time[0] := List.getElem?_eq_getElem (by omega)
  have ht1 : time[1]? = some time[1] := List.getElem?_eq_getElem (by omega)
  have ha0 : acc[0]? = some acc[0] := List.getElem?_eq_getElem (by omega)
  have h01 : time[0] ≤ time[1] :=
    le_of_lt (sorted_lt_getElem? time hinc 0 1 _ _ Nat.zero_lt_one ht0 ht1)
  obtain ⟨N, st, hN, huniq, hinv, hpos⟩ :=
    regularize_spec acc time dt time[0] time[1] hlen ht0 ht1 h01 hdt
  have hg0 : st.reg_tme[0]? = some time[0] := by
    rw [hinv.grid 0 (by omega)]; simp
  refine ⟨N, st.reg_tme, st.reg_acc, hN, huniq, hinv.len_eq, hinv.interp, hpos, ?_, ?_⟩
  · rw [hg0, ht0]
  · have hlen0 : 0 < st.reg_acc.length := by rw [← hinv.len_eq]; omega
    have hra : st.reg_acc[0]? = some st.reg_acc[0] := List.getElem?_eq_getElem hlen0
    obtain ⟨i, ti, ti1, ai, ai1, hti, hti1, hai, hai1, hle, _, ha⟩ :=
      hinv.interp 0 _ _ hg0 hra
    have hi0 : i = 0 := by
      by_contra hne
      have := sorted_lt_getElem? time hinc 0 i _ _ (Nat.pos_of_ne_zero hne) ht0 hti
      exact absurd hle (not_le.2 this)
    subst hi0
    rw [ht0] at hti
    rw [ha0] at hai
    simp only [Option.some.injEq] at hti hai
    rw [hra, ha0, ha, ← hti, ← hai]
    simp

/-- Witness for C2: the three-sample record `time = [0, 1, 3]`, `accel = [0, 2, 6]`
resampled at `dt = 1/2`. -/
theorem regularize_interpolation_witness :
    ∃ (N : Nat) (reg_tme reg_acc : List ℚ),
      (∀ fuel, N ≤ fuel →
        regularize fuel [0, 2, 6] [0, 1, 3] (1 / 2) = Except.ok [reg_tme, reg_acc]) ∧
      (∀ fuel r, regularize fuel [0, 2, 6] [0, 1, 3] (1 / 2) = Except.ok r →
        r = [reg_tme, reg_acc]) ∧
      reg_tme.length = reg_acc.length ∧
      (∀ (k : Nat) (t a : ℚ), reg_tme[k]? = some t → reg_acc[k]? = some a →
        ∃ (i : Nat) (ti ti1 ai ai1 : ℚ), ([0, 1, 3] : List ℚ)[i]? = some ti ∧
          ([0, 1, 3] : List ℚ)[i + 1]? = some ti1 ∧
          ([0, 2, 6] : List ℚ)[i]? = some ai ∧ ([0, 2, 6] : List ℚ)[i + 1]? = some ai1 ∧
          ti ≤ t ∧ t ≤ ti1 ∧ a = ai + (t - ti) / (ti1 - ti) * (ai1 - ai)) ∧
      1 ≤ reg_tme.length ∧ reg_tme[0]? = ([0, 1, 3] : List ℚ)[0]? ∧
      reg_acc[0]? = ([0, 2, 6] : List ℚ)[0]? :=
  regularize_interpolation [0, 2, 6] [0, 1, 3] (1 / 2) rfl (by decide)
    (by simp [List.Sorted]) (by norm_num)

end Regularize

/-! ## Proofs: responseSpectrum -/

section ResponseSpectrum

variable {F : Type} [LinearOrderedField F]

/-- The outer loop after `k` bins: every vector holds one entry per bin processed. -/
theorem spectrumFold_eq (log10 pow10 : F → F) (freq_start freq_end : F) (freq_num : Nat)
    (history_acc : List F) (xi reg_dt : F) (hne : history_acc ≠ []) (k : Nat) :
    (List.range k).foldlM
      (spectrumBin log10 pow10 freq_start freq_end freq_num history_acc xi reg_dt)
      ({ freq_vec := [], aspec_vec := [], vspec_vec := [], dspec_vec := [] } : SpecState F) =
    Except.ok
      { freq_vec := (List.range k).map (binFreq log10 pow10 freq_start freq_end freq_num)
        aspec_vec := (List.range k).map (fun n =>
          binPdmax log10 pow10 freq_start freq_end freq_num history_acc xi reg_dt n *
            binOmega log10 pow10 freq_start freq_end freq_num n *
            binOmega log10 pow10 freq_start freq_end freq_num n)
        vspec_vec := (List.range k).map (fun n =>
          binPdmax log10 pow10 freq_start freq_end freq_num history_acc xi reg_dt n *
            binOmega log10 pow10 freq_start freq_end freq_num n)
        dspec_vec := (List.range k).map
          (binPdmax log10 pow10 freq_start freq_end freq_num history_acc xi reg_dt) } := by
  induction k with
  | zero => rfl
  | succ k ih =>
    obtain ⟨h0, tl, rfl⟩ := List.exists_cons_of_ne_nil hne
    rw [List.range_succ, List.foldlM_append, ih]
    have hrd : rd (List.map (binFreq log10 pow10 freq_start freq_end freq_num) (List.range k) ++
        [pow10 (log10 freq_start +
          (k : F) * ((log10 freq_end - log10 freq_start) / ((freq_num - 1 : Nat) : F)))]) k =
        Except.ok (binFreq log10 pow10 freq_start freq_end freq_num k) := by
      rw [rd_eq_ok_iff, List.getElem?_append_right (by simp)]
      simp [binFreq]
    have hrd0 : rd (h0 :: tl) 0 = Except.ok h0 := by simp [rd]
    simp only [List.foldlM_cons, List.foldlM_nil, spectrumBin, hrd, hrd0, bind, Except.bind,
      pure, Except.pure, List.map_append, List.map_cons, List.map_nil,
      binPdmax, binOmega, List.headD_cons]
    rfl

/-- On a non-empty history `responseSpectrum` returns, and its four vectors are given bin
by bin by `binFreq`, `binPdmax` and `binOmega`. -/
theorem responseSpectrum_eq (log10 pow10 : F → F) (freq_start freq_end : F) (freq_num : Nat)
    (history_acc : List F) (xi reg_dt : F) (hne : history_acc ≠ []) :
    responseSpectrum log10 pow10 freq_start freq_end freq_num history_acc xi reg_dt =
    Except.ok
      [(List.range freq_num).map (binFreq log10 pow10 freq_start freq_end freq_num),
       (List.range freq_num).map
          (binPdmax log10 pow10 freq_start freq_end freq_num history_acc xi reg_dt),
       (List.range freq_num).map (fun n =>
          binPdmax log10 pow10 freq_start freq_end freq_num history_acc xi reg_dt n *
            binOmega log10 pow10 freq_start freq_end freq_num n),
       (List.range freq_num).map (fun n =>
          binPdmax log10 pow10 freq_start freq_end freq_num history_acc xi reg_dt n *
            binOmega log10 pow10 freq_start freq_end freq_num n *
            binOmega log10 pow10 freq_start freq_end freq_num n)] := by
  unfold responseSpectrum
  rw [spectrumFold_eq log10 pow10 freq_start freq_end freq_num history_acc xi reg_dt hne]
  rfl

/-- Reading entry `n` of a vector filled bin by bin. -/
theorem getElem?_map_range {α : Type} (f : Nat → α) (K n : Nat) (a : α) :
    ((List.range K).map f)[n]? = some a ↔ n < K ∧ f n = a := by
  rw [List.getElem?_map]
  by_cases hn : n < K
  · rw [List.getElem?_range hn]
    simp [hn]
  · have hnone : (List.range K)[n]? = none := List.getElem?_eq_none (by simpa using hn)
    rw [hnone]
    simp [hn]

end ResponseSpectrum

/-- C3. `responseSpectrum`, frequency grid (real arithmetic, `log10 = Real.logb 10`,
`pow(10.0, y) = 10 ^ y`): for `freq_num >= 2`, `0 < freq_start < freq_end` and a non-empty
history the call returns, the frequency vector has length `freq_num`, starts at
`freq_start`, ends at `freq_end`, is strictly increasing, and consecutive entries are
`(log10(freq_end) - log10(freq_start)) / (freq_num - 1)` apart in `log10`. -/
theorem responseSpectrum_frequency_grid (freq_start freq_end : ℝ) (freq_num : Nat)
    (history_acc : List ℝ) (xi reg_dt : ℝ) (hnum : 2 ≤ freq_num) (hstart : 0 < freq_start)
    (hend : freq_start < freq_end) (hne : history_acc ≠ []) :
    ∃ freq disp vel acc : List ℝ,
      responseSpectrum (Real.logb 10) (fun y => (10 : ℝ) ^ y) freq_start freq_end freq_num
        history_acc xi reg_dt = Except.ok [freq, disp, vel, acc] ∧
      freq.length = freq_num ∧
      freq[0]? = some freq_start ∧
      freq[freq_num - 1]? = some freq_end ∧
      freq.Sorted (· < ·) ∧
      ∀ (n : Nat) (a b : ℝ), freq[n]? = some a → freq[n + 1]? = some b →
        Real.logb 10 b - Real.logb 10 a =
          (Real.logb 10 freq_end - Real.logb 10 freq_start) / ((freq_num : ℝ) - 1) := by
  have h10 : (0 : ℝ) < 10 := by norm_num
  have h10' : (10 : ℝ) ≠ 1 := by norm_num
  have h110 : (1 : ℝ) < 10 := by norm_num
  have hend0 : 0 < freq_end := lt_trans hstart hend
  have hcast : ((freq_num - 1 : Nat) : ℝ) = (freq_num : ℝ) - 1 := by
    rw [Nat.cast_sub (by omega)]; simp
  have hK : (0 : ℝ) < (freq_num : ℝ) - 1 := by
    have : (2 : ℝ) ≤ (freq_num : ℝ) := by exact_mod_cast hnum
    linarith
  have hd : 0 < (Real.logb 10 freq_end - Real.logb 10 freq_start) / ((freq_num : ℝ) - 1) :=
    div_pos (sub_pos.2 (Real.logb_lt_logb h110 hstart hend)) hK
  have hbin : ∀ n : Nat, binFreq (Real.logb 10) (fun y => (10 : ℝ) ^ y) freq_start freq_end
      freq_num n = (10 : ℝ) ^ (Real.logb 10 freq_start + (n : ℝ) *
        ((Real.logb 10 freq_end - Real.logb 10 freq_start) / ((freq_num : ℝ) - 1))) := by
    intro n
    simp only [binFreq, hcast]
  refine ⟨_, _, _, _, responseSpectrum_eq _ _ freq_start freq_end freq_num history_acc xi
    reg_dt hne, by simp, ?_, ?_, ?_, ?_⟩
  · rw [getElem?_map_range]
    refine ⟨by omega, ?_⟩
    rw [hbin]
    simp only [Nat.cast_zero, zero_mul, add_zero]
    exact Real.rpow_logb h10 h10' hstart
  · rw [getElem?_map_range]
    refine ⟨by omega, ?_⟩
    rw [hbin, hcast]
    have : Real.logb 10 freq_start + ((freq_num : ℝ) - 1) *
        ((Real.logb 10 freq_end - Real.logb 10 freq_start) / ((freq_num : ℝ) - 1)) =
        Real.logb 10 freq_end := by
      field_simp
    rw [this]
    exact Real.rpow_logb h10 h10' hend0
  · rw [List.Sorted, List.pairwise_iff_getElem]
    intro i j hi hj hij
    simp only [List.getElem_map, List.getElem_range, hbin]
    apply Real.rpow_lt_rpow_of_exponent_lt h110
    have : (i : ℝ) < (j : ℝ) := by exact_mod_cast hij
    nlinarith
  · intro n a b ha hb
    rw [getElem?_map_range] at ha hb
    rw [← ha.2, ← hb.2, hbin, hbin, Real.logb_rpow h10 h10', Real.logb_rpow h10 h10']
    push_cast
    ring

/-- Witness for C3: two bins between 1 Hz and 10 Hz, one sample. -/
theorem responseSpectrum_frequency_grid_witness :
    ∃ freq disp vel acc : List ℝ,
      responseSpectrum (Real.logb 10) (fun y => (10 : ℝ) ^ y) 1 10 2 [1] 0 1 =
        Except.ok [freq, disp, vel, acc] ∧
      freq.length = 2 ∧
      freq[0]? = some 1 ∧
      freq[2 - 1]? = some 10 ∧
      freq.Sorted (· < ·) ∧
      ∀ (n : Nat) (a b : ℝ), freq[n]? = some a → freq[n + 1]? = some b →
        Real.logb 10 b - Real.logb 10 a =
          (Real.logb 10 10 - Real.logb 10 1) / (((2 : Nat) : ℝ) - 1) :=
  responseSpectrum_frequency_grid 1 10 2 [1] 0 1 (le_refl 2) (by norm_num) (by norm_num)
    (by simp)

/-- The relations between the returned spectra that the code does establish: with
`om_n = 2 * 3.141593 * freq[n]`, every bin has `vel[n] = disp[n] * om_n` and
`acc[n] = disp[n] * om_n * om_n`, and the four vectors have length `freq_num`. -/
theorem responseSpectrum_pseudo_spectra_literal {F : Type} [LinearOrderedField F]
    (log10 pow10 : F → F) (freq_start freq_end : F) (freq_num : Nat)
    (history_acc : List F) (xi reg_dt : F) (hne : history_acc ≠ []) :
    ∃ freq disp vel acc : List F,
      responseSpectrum log10 pow10 freq_start freq_end freq_num history_acc xi reg_dt =
        Except.ok [freq, disp, vel, acc] ∧
      freq.length = freq_num ∧ disp.length = freq_num ∧ vel.length = freq_num ∧
      acc.length = freq_num ∧
      ∀ (n : Nat) (f d : F), freq[n]? = some f → disp[n]? = some d →
        vel[n]? = some (d * (2 * (3141593 / 1000000) * f)) ∧
        acc[n]? = some (d * (2 * (3141593 / 1000000) * f) * (2 * (3141593 / 1000000) * f)) := by
  refine ⟨_, _, _, _, responseSpectrum_eq log10 pow10 freq_start freq_end freq_num history_acc
    xi reg_dt hne, by simp, by simp, by simp, by simp, ?_⟩
  intro n f d hf hd
  rw [getElem?_map_range] at hf hd
  obtain ⟨hn, rfl⟩ := hf
  obtain ⟨_, rfl⟩ := hd
  constructor
  · rw [getElem?_map_range]; exact ⟨hn, rfl⟩
  · rw [getElem?_map_range]; exact ⟨hn, rfl⟩

/-- C4 (the code at a failing input). For two bins between 1 Hz and 10 Hz, the history
`[1]`, `xi = 0` and `reg_dt = 1`, bin 0 has frequency 1 and a non-zero peak displacement;
its pseudo-velocity is the displacement times `2 * 3.141593 * freq[0]`, which is not the
displacement times `2 * π * freq[0]`, and likewise the pseudo-acceleration is not the
displacement times `(2 * π * freq[0])^2`. -/
theorem responseSpectrum_pseudo_spectra_not_pi :
    ∃ (freq disp vel acc : List ℝ) (f d v a : ℝ),
      responseSpectrum (Real.logb 10) (fun y => (10 : ℝ) ^ y) 1 10 2 [1] 0 1 =
        Except.ok [freq, disp, vel, acc] ∧
      freq[0]? = some f ∧ disp[0]? = some d ∧ vel[0]? = some v ∧ acc[0]? = some a ∧
      f = 1 ∧ d ≠ 0 ∧
      v = d * (2 * (3141593 / 1000000) * f) ∧ v ≠ d * (2 * Real.pi * f) ∧
      a ≠ d * (2 * Real.pi * f) ^ 2 := by
  have hf : binFreq (Real.logb 10) (fun y => (10 : ℝ) ^ y) 1 10 2 0 = 1 := by
    simp [binFreq]
  have hom : binOmega (Real.logb 10) (fun y => (10 : ℝ) ^ y) 1 10 2 0 =
      2 * (3141593 / 1000000) := by
    rw [binOmega, hf, mul_one]
  have hd : binPdmax (Real.logb 10) (fun y => (10 : ℝ) ^ y) 1 10 2 [1] 0 1 0 =
      1 / 2 / (1 + (2 * (3141593 / 1000000)) * (2 * (3141593 / 1000000)) / 4) := by
    rw [binPdmax, hom]
    norm_num [oscIntegrate, oscStep, abs_of_pos]
  have hd0 : binPdmax (Real.logb 10) (fun y => (10 : ℝ) ^ y) 1 10 2 [1] 0 1 0 ≠ 0 := by
    rw [hd]; norm_num
  have hpi : Real.pi < 3141593 / 1000000 := by
    have := Real.pi_lt_d6
    norm_num at this ⊢
    exact this
  have hpi0 := Real.pi_pos
  refine ⟨_, _, _, _, _, _, _, _, responseSpectrum_eq _ _ 1 10 2 [1] 0 1 (by simp),
    (getElem?_map_range _ 2 0 _).2 ⟨by norm_num, rfl⟩,
    (getElem?_map_range _ 2 0 _).2 ⟨by norm_num, rfl⟩,
    (getElem?_map_range _ 2 0 _).2 ⟨by norm_num, rfl⟩,
    (getElem?_map_range _ 2 0 _).2 ⟨by norm_num, rfl⟩, hf, hd0, ?_, ?_, ?_⟩
  · rw [binOmega]
  · rw [hom, hf]
    intro h
    have h2 := mul_left_cancel₀ hd0 h
    linarith
  · rw [hom, hf]
    intro h
    have h2 : (2 * (3141593 / 1000000 : ℝ)) * (2 * (3141593 / 1000000)) =
        (2 * Real.pi * 1) ^ 2 := by
      apply mul_left_cancel₀ hd0
      rw [← h]; ring
    nlinarith

section PeakDisplacement

variable {F : Type} [LinearOrderedField F]

/-- How one pass of the inner loop updates `pdmax`. -/
theorem oscStep_pdmax (om_d reg_dt dt2 kd : F) (st : OscState F) (a : F) :
    (oscStep om_d reg_dt dt2 kd st a).pdmax =
      if |(oscStep om_d reg_dt dt2 kd st a).dis1| > st.pdmax
      then |(oscStep om_d reg_dt dt2 kd st a).dis1| else st.pdmax := rfl

/-- After one pass `pdmax` bounds both its old value and the new `|dis2|`, and is one of
the two. -/
theorem oscStep_pdmax_spec (om_d reg_dt dt2 kd : F) (st : OscState F) (a : F) :
    st.pdmax ≤ (oscStep om_d reg_dt dt2 kd st a).pdmax ∧
    |(oscStep om_d reg_dt dt2 kd st a).dis1| ≤ (oscStep om_d reg_dt dt2 kd st a).pdmax ∧
    ((oscStep om_d reg_dt dt2 kd st a).pdmax = st.pdmax ∨
      (oscStep om_d reg_dt dt2 kd st a).pdmax = |(oscStep om_d reg_dt dt2 kd st a).dis1|) := by
  rw [oscStep_pdmax]
  by_cases h : |(oscStep om_d reg_dt dt2 kd st a).dis1| > st.pdmax
  · rw [if_pos h]
    exact ⟨le_of_lt h, le_refl _, Or.inr rfl⟩
  · rw [if_neg h]
    exact ⟨le_refl _, not_lt.1 h, Or.inl rfl⟩

/-- The inner loop keeps in `pdmax` the largest of its start value and all `|dis2|` seen. -/
theorem oscFold_pdmax (om_d reg_dt dt2 kd : F) :
    ∀ (samples : List F) (st : OscState F),
      st.pdmax ≤ (samples.foldl (oscStep om_d reg_dt dt2 kd) st).pdmax ∧
      (∀ j, j < samples.length →
        |((samples.take (j + 1)).foldl (oscStep om_d reg_dt dt2 kd) st).dis1| ≤
          (samples.foldl (oscStep om_d reg_dt dt2 kd) st).pdmax) ∧
      ((samples.foldl (oscStep om_d reg_dt dt2 kd) st).pdmax = st.pdmax ∨
        ∃ j, j < samples.length ∧ (samples.foldl (oscStep om_d reg_dt dt2 kd) st).pdmax =
          |((samples.take (j + 1)).foldl (oscStep om_d reg_dt dt2 kd) st).dis1|)
  | [], st => ⟨le_refl _, fun j hj => absurd hj (Nat.not_lt_zero j), Or.inl rfl⟩
  | a :: tl, st => by
    obtain ⟨h1, h2, h3⟩ := oscStep_pdmax_spec om_d reg_dt dt2 kd st a
    obtain ⟨i1, i2, i3⟩ := oscFold_pdmax om_d reg_dt dt2 kd tl (oscStep om_d reg_dt dt2 kd st a)
    simp only [List.foldl_cons, List.length_cons, List.take_succ_cons]
    refine ⟨le_trans h1 i1, ?_, ?_⟩
    · intro j hj
      cases j with
      | zero => simpa using le_trans h2 i1
      | succ j => exact i2 j (by omega)
    · rcases i3 with i3 | ⟨j, hj, i3⟩
      · rcases h3 with h3 | h3
        · exact Or.inl (i3.trans h3)
        · exact Or.inr ⟨0, by omega, by simpa using i3.trans h3⟩
      · exact Or.inr ⟨j + 1, by omega, i3⟩

end PeakDisplacement

/-- C5. `responseSpectrum`, peak displacement: for a non-empty history the call returns and
every entry `disp[n]` of the displacement spectrum is the maximum over the time steps `j` of
`|dis_j|`, the oscillator displacement of bin `n` after sample `j`: it bounds every
`|dis_j|`, equals one of them, and is non-negative. -/
theorem responseSpectrum_peak_displacement {F : Type} [LinearOrderedField F]
    (log10 pow10 : F → F) (freq_start freq_end : F) (freq_num : Nat)
    (history_acc : List F) (xi reg_dt : F) (hne : history_acc ≠ []) :
    ∃ freq disp vel acc : List F,
      responseSpectrum log10 pow10 freq_start freq_end freq_num history_acc xi reg_dt =
        Except.ok [freq, disp, vel, acc] ∧
      disp.length = freq_num ∧
      ∀ (n : Nat) (d : F), disp[n]? = some d →
        (∀ j, j < history_acc.length →
          |binDis log10 pow10 freq_start freq_end freq_num history_acc xi reg_dt n j| ≤ d) ∧
        (∃ j, j < history_acc.length ∧
          d = |binDis log10 pow10 freq_start freq_end freq_num history_acc xi reg_dt n j|) ∧
        0 ≤ d := by
  refine ⟨_, _, _, _, responseSpectrum_eq log10 pow10 freq_start freq_end freq_num history_acc
    xi reg_dt hne, by simp, ?_⟩
  intro n d hd
  rw [getElem?_map_range] at hd
  obtain ⟨_, rfl⟩ := hd
  have hlen : 0 < history_acc.length := List.length_pos.2 hne
  obtain ⟨h1, h2, h3⟩ := oscFold_pdmax
    (binOmega log10 pow10 freq_start freq_end freq_num n * xi) reg_dt (reg_dt * reg_dt)
    (1 + binOmega log10 pow10 freq_start freq_end freq_num n * xi * reg_dt +
      reg_dt * reg_dt * binOmega log10 pow10 freq_start freq_end freq_num n *
        binOmega log10 pow10 freq_start freq_end freq_num n / 4)
    history_acc
    { dis1 := 0, vel1 := 0
      acc1 := -1 * history_acc.headD 0 -
        2 * (binOmega log10 pow10 freq_start freq_end freq_num n * xi) * 0 -
        binOmega log10 pow10 freq_start freq_end freq_num n *
          binOmega log10 pow10 freq_start freq_end freq_num n * 0
      pdmax := 0 }
  refine ⟨h2, ?_, h1⟩
  rcases h3 with h3 | h3
  · refine ⟨0, hlen, ?_⟩
    have hle := h2 0 hlen
    have h3' : binPdmax log10 pow10 freq_start freq_end freq_num history_acc xi reg_dt n = 0 :=
      h3
    rw [h3']
    rw [h3] at hle
    exact le_antisymm (abs_nonneg _) hle
  · exact h3

/-- Witness for C5: two bins between 1 Hz and 10 Hz, history `[1, -2]`, 5 % damping,
`reg_dt = 0.01`. -/
theorem responseSpectrum_peak_displacement_witness :
    ∃ freq disp vel acc : List ℝ,
      responseSpectrum (Real.logb 10) (fun y => (10 : ℝ) ^ y) 1 10 2 [1, -2] (1 / 20) (1 / 100) =
        Except.ok [freq, disp, vel, acc] ∧
      disp.length = 2 ∧
      ∀ (n : Nat) (d : ℝ), disp[n]? = some d →
        (∀ j, j < ([1, -2] : List ℝ).length →
          |binDis (Real.logb 10) (fun y => (10 : ℝ) ^ y) 1 10 2 [1, -2] (1 / 20) (1 / 100) n j|
            ≤ d) ∧
        (∃ j, j < ([1, -2] : List ℝ).length ∧
          d = |binDis (Real.logb 10) (fun y => (10 : ℝ) ^ y) 1 10 2 [1, -2] (1 / 20) (1 / 100)
            n j|) ∧
        0 ≤ d :=
  responseSpectrum_peak_displacement (Real.logb 10) (fun y => (10 : ℝ) ^ y) 1 10 2 [1, -2]
    (1 / 20) (1 / 100) (by simp)

/-! ## Proofs: statistics -/

section Statistics

variable {F : Type} [LinearOrderedField F]

theorem sortAsc_length (v : List F) : (sortAsc v).length = v.length :=
  List.length_insertionSort _ v

theorem sortAsc_sorted (v : List F) : (sortAsc v).Sorted (· ≤ ·) :=
  List.sorted_insertionSort _ v

theorem sortAsc_perm (v : List F) : (sortAsc v).Perm v :=
  List.perm_insertionSort _ v

theorem sizeSub_of_le (a b : Nat) (h : b ≤ a) : sizeSub a b = a - b := by
  simp [sizeSub, h]

/-- Odd length: `median` returns the middle element whatever `interpolation` is. -/
theorem median_odd (v : List F) (interpolation : String) (hodd : v.length % 2 = 1) :
    ∃ mid, (sortAsc v)[(v.length - 1) / 2]? = some mid ∧
      median v interpolation = Except.ok mid := by
  have hlt : (v.length - 1) / 2 < (sortAsc v).length := by
    rw [sortAsc_length]; omega
  refine ⟨(sortAsc v)[(v.length - 1) / 2], List.getElem?_eq_getElem hlt, ?_⟩
  unfold median
  simp only [sortAsc_length, hodd, ne_eq, one_ne_zero, not_false_eq_true, if_true]
  rw [sizeSub_of_le _ _ (by omega)]
  exact rd_of_lt _ _ hlt

/-- Even non-zero length: `median` follows `interpolation`. -/
theorem median_even (v : List F) (hne : v ≠ []) (heven : v.length % 2 = 0) :
    ∃ lo hi, (sortAsc v)[v.length / 2 - 1]? = some lo ∧ (sortAsc v)[v.length / 2]? = some hi ∧
      median v "lower" = Except.ok lo ∧ median v "higher" = Except.ok hi ∧
      median v "linear" = Except.ok ((lo + hi) / 2) ∧
      ∀ interpolation, interpolation ≠ "linear" → interpolation ≠ "lower" →
        interpolation ≠ "higher" → median v interpolation =
          Except.error (Fault.mooseError "Invalid interpolation type in median calculation.") := by
  have hpos : 0 < v.length := List.length_pos.2 hne
  have hlo : v.length / 2 - 1 < (sortAsc v).length := by
    rw [sortAsc_length]; omega
  have hhi : v.length / 2 < (sortAsc v).length := by
    rw [sortAsc_length]; omega
  have hsub : sizeSub (v.length / 2) 1 = v.length / 2 - 1 := sizeSub_of_le _ _ (by omega)
  refine ⟨(sortAsc v)[v.length / 2 - 1], (sortAsc v)[v.length / 2],
    List.getElem?_eq_getElem hlo, List.getElem?_eq_getElem hhi, ?_, ?_, ?_, ?_⟩
  · unfold median
    simp only [sortAsc_length, heven, ne_eq, not_true_eq_false, if_false, hsub]
    rw [if_pos trivial]
    exact rd_of_lt _ _ hlo
  · unfold median
    simp only [sortAsc_length, heven, ne_eq, not_true_eq_false, if_false, hsub]
    rw [if_pos trivial]
    exact rd_of_lt _ _ hhi
  · unfold median
    simp only [sortAsc_length, heven, ne_eq, not_true_eq_false, if_false, hsub]
    rw [if_pos trivial, rd_of_lt _ _ hhi, rd_of_lt _ _ hlo]
    simp only [bind, Except.bind, pure, Except.pure]
    rw [add_comm]
  · intro interpolation h1 h2 h3
    unfold median
    simp only [sortAsc_length, heven, ne_eq, not_true_eq_false, if_false, hsub]
    rw [if_neg h1, if_neg h2, if_neg h3]

end Statistics

/-- C8. `median` rule: for a non-empty vector `v` with ascending sorted copy `s` of length
`n`: if `n` is odd, `median(v, i)` is `s[(n-1)/2]` for `i` in linear, lower, higher; if `n`
is even, `median(v, "lower")` is `s[n/2 - 1]`, `median(v, "higher")` is `s[n/2]` and
`median(v, "linear")` is their mean. The vector `v` is passed by value, so the caller's
vector is the same before and after the call. -/
theorem median_rule {F : Type} [LinearOrderedField F] (v : List F) (hne : v ≠ []) :
    ∃ s : List F, s.Sorted (· ≤ ·) ∧ s.Perm v ∧
      (v.length % 2 = 1 → ∃ mid, s[(v.length - 1) / 2]? = some mid ∧
        ∀ i ∈ ["linear", "lower", "higher"], median v i = Except.ok mid) ∧
      (v.length % 2 = 0 → ∃ lo hi, s[v.length / 2 - 1]? = some lo ∧
        s[v.length / 2]? = some hi ∧
        median v "lower" = Except.ok lo ∧ median v "higher" = Except.ok hi ∧
        median v "linear" = Except.ok ((lo + hi) / 2)) := by
  refine ⟨sortAsc v, sortAsc_sorted v, sortAsc_perm v, ?_, ?_⟩
  · intro hodd
    obtain ⟨mid, hmid, _⟩ := median_odd v "linear" hodd
    refine ⟨mid, hmid, fun i _ => ?_⟩
    obtain ⟨mid2, hmid2, h⟩ := median_odd v i hodd
    rw [hmid] at hmid2
    rw [h, Option.some.inj hmid2]
  · intro heven
    obtain ⟨lo, hi, hlo, hhi, h1, h2, h3, _⟩ := median_even v hne heven
    exact ⟨lo, hi, hlo, hhi, h1, h2, h3⟩

/-- Witness for C8: `median([1,2,3,4])` is 2.5 / 2 / 3 for linear / lower / higher. -/
theorem median_rule_witness :
    (∃ s : List ℚ, s.Sorted (· ≤ ·) ∧ s.Perm [1, 2, 3, 4] ∧
      (([1, 2, 3, 4] : List ℚ).length % 2 = 1 →
        ∃ mid, s[(([1, 2, 3, 4] : List ℚ).length - 1) / 2]? = some mid ∧
        ∀ i ∈ ["linear", "lower", "higher"], median [1, 2, 3, 4] i = Except.ok mid) ∧
      (([1, 2, 3, 4] : List ℚ).length % 2 = 0 →
        ∃ lo hi, s[([1, 2, 3, 4] : List ℚ).length / 2 - 1]? = some lo ∧
        s[([1, 2, 3, 4] : List ℚ).length / 2]? = some hi ∧
        median [1, 2, 3, 4] "lower" = Except.ok lo ∧
        median [1, 2, 3, 4] "higher" = Except.ok hi ∧
        median [1, 2, 3, 4] "linear" = Except.ok ((lo + hi) / 2))) ∧
    median [(1 : ℚ), 2, 3, 4] "linear" = Except.ok (5 / 2) ∧
    median [(1 : ℚ), 2, 3, 4] "lower" = Except.ok 2 ∧
    median [(1 : ℚ), 2, 3, 4] "higher" = Except.ok 3 :=
  ⟨median_rule [1, 2, 3, 4] (by simp), by decide!, by decide!, by decide!⟩

/-- C9 (the code at failing inputs). On a vector of odd length `median` returns the middle
element for an interpolation string it does not know; only on even lengths does such a
string end in `mooseError`. -/
theorem median_unknown_interpolation_odd_returns :
    median [(1 : ℚ)] "bogus" = Except.ok 1 ∧
    median [(3 : ℚ), 1, 2] "cubic" = Except.ok 2 ∧
    median [(1 : ℚ), 2] "bogus" =
      Except.error (Fault.mooseError "Invalid interpolation type in median calculation.") := by
  decide!

section Percentile

variable {F : Type} [LinearOrderedField F] [FloorRing F]

theorem rd_of_ge {α : Type} (v : List α) (i : Nat) (h : v.length ≤ i) :
    rd v i = Except.error Fault.outOfBounds := by
  unfold rd
  rw [List.getElem?_eq_none h]

/-- The rank `percent / 100 * n` at `percent = 50` and `n = 2 k + 1`. -/
theorem rank_50_odd (k : Nat) :
    ⌊(50 : F) / 100 * ((2 * k + 1 : Nat) : F)⌋ = (k : ℤ) ∧
    Int.fract ((50 : F) / 100 * ((2 * k + 1 : Nat) : F)) = 1 / 2 := by
  have hx : (50 : F) / 100 * ((2 * k + 1 : Nat) : F) = (k : F) + 1 / 2 := by
    push_cast; ring
  have hfl : ⌊(k : F) + 1 / 2⌋ = (k : ℤ) := by
    rw [Int.floor_eq_iff]
    constructor
    · push_cast; linarith [show (0 : F) < 1 / 2 by norm_num]
    · push_cast; linarith [show (1 : F) / 2 < 1 by norm_num]
  rw [hx]
  refine ⟨hfl, ?_⟩
  rw [Int.fract, hfl]
  push_cast; ring

/-- At `percent = 50` on an odd length `2 k + 1 >= 3` the linear `percentile` is half-way
between `s[k-1]` and the middle element `s[k]` of the sorted copy. -/
theorem percentile_50_odd_eq (v : List F) (k : Nat) (hk : 1 ≤ k) (hlen : v.length = 2 * k + 1) :
    ∃ lo mid, (sortAsc v)[k - 1]? = some lo ∧ (sortAsc v)[k]? = some mid ∧
      percentile v 50 "linear" = Except.ok (lo + 1 / 2 * (mid - lo)) := by
  have hlo : k - 1 < (sortAsc v).length := by rw [sortAsc_length]; omega
  have hmid : k < (sortAsc v).length := by rw [sortAsc_length]; omega
  have hk1 : k - 1 + 1 = k := by omega
  obtain ⟨hfl, hfr⟩ := rank_50_odd (F := F) k
  have hkz : ¬ ((k : ℤ) = 0) := by omega
  have hidx : ((k : ℤ) - 1).toNat = k - 1 := by omega
  refine ⟨(sortAsc v)[k - 1], (sortAsc v)[k], List.getElem?_eq_getElem hlo,
    List.getElem?_eq_getElem hmid, ?_⟩
  unfold percentile
  have hrange : ¬ ((50 : F) < 0 ∨ (50 : F) > 100) := by norm_num
  simp only [hrange, if_false, sortAsc_length, hlen, hfl, hfr, hkz, hidx, hk1]
  rw [if_pos trivial, rd_of_lt _ _ hlo, rd_of_lt _ _ hmid]
  rfl

/-- At `percent = 100` the index `low_index + 1` is the length of the vector: the
`"higher"` and `"linear"` branches read one element past the end. -/
theorem percentile_100_reads_past_end (v : List F) (hne : v ≠ []) :
    percentile v 100 "higher" = Except.error Fault.outOfBounds ∧
    percentile v 100 "linear" = Except.error Fault.outOfBounds := by
  have hpos : 0 < v.length := List.length_pos.2 hne
  have hx : (100 : F) / 100 * (v.length : F) = (v.length : F) := by
    rw [div_self (by norm_num), one_mul]
  have hfl : ⌊(100 : F) / 100 * (v.length : F)⌋ = (v.length : ℤ) := by
    rw [hx]; exact Int.floor_natCast _
  have hnz : ¬ ((v.length : ℤ) = 0) := by omega
  have hidx : ((v.length : ℤ) - 1).toNat = v.length - 1 := by omega
  have hlo : v.length - 1 < (sortAsc v).length := by rw [sortAsc_length]; omega
  have hhi : (sortAsc v).length ≤ v.length - 1 + 1 := by rw [sortAsc_length]; omega
  have hrange : ¬ ((100 : F) < 0 ∨ (100 : F) > 100) := by norm_num
  constructor
  · unfold percentile
    simp only [hrange, if_false, sortAsc_length, hfl, hnz, hidx]
    rw [if_pos trivial]
    exact rd_of_ge _ _ hhi
  · unfold percentile
    simp only [hrange, if_false, sortAsc_length, hfl, hnz, hidx]
    rw [if_pos trivial, rd_of_lt _ _ hlo, rd_of_ge _ _ hhi]
    rfl

end Percentile

/-- C6 (counterexample). On `[1,2,3,4,5]` the linear `percentile` at 50 is 2.5 while the
median is 3. -/
theorem percentile_50_not_median :
    percentile [(1 : ℚ), 2, 3, 4, 5] 50 "linear" = Except.ok (5 / 2) ∧
    median [(1 : ℚ), 2, 3, 4, 5] "linear" = Except.ok 3 ∧
    percentile [(1 : ℚ), 2, 3, 4, 5] 50 "linear" ≠ median [(1 : ℚ), 2, 3, 4, 5] "linear" := by
  decide!

/-- C6 (amended). For a vector of odd length `n = 2 k + 1 >= 3` with ascending sorted copy
`s`, `percentile(v, 50, "linear")` is `s[k-1] + (s[k] - s[k-1]) / 2`, half-way between the
element before the middle one and the middle element `s[k] = median(v, "linear")`. -/
theorem percentile_50_linear_odd {F : Type} [LinearOrderedField F] [FloorRing F]
    (v : List F) (k : Nat) (hk : 1 ≤ k) (hlen : v.length = 2 * k + 1) :
    ∃ s : List F, s.Sorted (· ≤ ·) ∧ s.Perm v ∧
      ∃ lo mid, s[k - 1]? = some lo ∧ s[k]? = some mid ∧
        median v "linear" = Except.ok mid ∧
        percentile v 50 "linear" = Except.ok (lo + 1 / 2 * (mid - lo)) := by
  obtain ⟨lo, mid, hlo, hmid, hp⟩ := percentile_50_odd_eq v k hk hlen
  obtain ⟨mid2, hmid2, hm⟩ := median_odd v "linear" (by omega)
  have hidx : (v.length - 1) / 2 = k := by omega
  rw [hidx, hmid] at hmid2
  refine ⟨sortAsc v, sortAsc_sorted v, sortAsc_perm v, lo, mid, hlo, hmid, ?_, hp⟩
  rw [hm, Option.some.inj hmid2]

/-- Witness for C6 (amended): `[1,2,3,4,5]`, where `k = 2`, with the value 2.5. -/
theorem percentile_50_linear_odd_witness :
    (∃ s : List ℚ, s.Sorted (· ≤ ·) ∧ s.Perm [1, 2, 3, 4, 5] ∧
      ∃ lo mid, s[2 - 1]? = some lo ∧ s[2]? = some mid ∧
        median [1, 2, 3, 4, 5] "linear" = Except.ok mid ∧
        percentile [1, 2, 3, 4, 5] 50 "linear" = Except.ok (lo + 1 / 2 * (mid - lo))) ∧
    (2 : ℚ) + 1 / 2 * (3 - 2) = 5 / 2 :=
  ⟨percentile_50_linear_odd [1, 2, 3, 4, 5] 2 (by decide) (by decide), by norm_num⟩

/-- C7 (the code at failing inputs). At `p = 100` the `"higher"` and `"linear"` branches of
`percentile` read `sorted_vector[len(v)]`, and at `p = 0` on a one-element vector they read
`sorted_vector[1]`: out-of-bounds reads. The `"lower"` branch stays in bounds. -/
theorem percentile_boundary_out_of_bounds :
    percentile [(1 : ℚ), 2, 3] 100 "higher" = Except.error Fault.outOfBounds ∧
    percentile [(1 : ℚ), 2, 3] 100 "linear" = Except.error Fault.outOfBounds ∧
    percentile [(1 : ℚ)] 0 "higher" = Except.error Fault.outOfBounds ∧
    percentile [(1 : ℚ)] 0 "linear" = Except.error Fault.outOfBounds ∧
    percentile [(1 : ℚ), 2, 3] 100 "lower" = Except.ok 3 ∧
    percentile [(1 : ℚ), 2, 3] 0 "lower" = Except.ok 1 := by
  decide!

section StandardDeviation

variable {F : Type} [LinearOrderedField F]

/-- A running sum started at `a`. -/
theorem foldl_add_eq_sum (f : F → F) :
    ∀ (v : List F) (a : F), v.foldl (fun sum x => sum + f x) a = a + (v.map f).sum
  | [], a => by simp
  | x :: tl, a => by
    rw [List.foldl_cons, foldl_add_eq_sum f tl (a + f x), List.map_cons, List.sum_cons, add_assoc]

/-- `mean` is the sum of the elements divided by their number. -/
theorem mean_eq (v : List F) : mean v = v.sum / (v.length : F) := by
  unfold mean
  rw [foldl_add_eq_sum (fun x => x) v 0]
  simp

/-- The value under the square root in `standardDeviation`, for at least one element. -/
theorem standardDeviation_eq (sqrt : F → F) (v : List F) (hn : 1 ≤ v.length) :
    standardDeviation sqrt v =
      sqrt ((v.map (fun x => (x - mean v) ^ 2)).sum / ((v.length : F) - 1)) := by
  unfold standardDeviation
  simp only
  rw [foldl_add_eq_sum (fun x => (x - mean v) * (x - mean v)) v 0, sizeSub_of_le _ _ hn,
    Nat.cast_sub hn, zero_add]
  simp only [Nat.cast_one, pow_two]

end StandardDeviation

/-- C10. `standardDeviation` is the Bessel-corrected sample standard deviation (real
arithmetic, `sqrt = Real.sqrt`): for `n = len(v) >= 2` the result `sigma` satisfies
`sigma >= 0` and `sigma^2 == (sum of (v[i] - mean(v))^2) / (n - 1)`, where
`mean(v) == sum(v) / n`. -/
theorem standardDeviation_bessel (v : List ℝ) (hn : 2 ≤ v.length) :
    0 ≤ standardDeviation Real.sqrt v ∧
    standardDeviation Real.sqrt v ^ 2 =
      (v.map (fun x => (x - mean v) ^ 2)).sum / ((v.length : ℝ) - 1) ∧
    mean v = v.sum / (v.length : ℝ) := by
  have hrw := standardDeviation_eq Real.sqrt v (by omega)
  have hden : (0 : ℝ) < (v.length : ℝ) - 1 := by
    have : (2 : ℝ) ≤ (v.length : ℝ) := by exact_mod_cast hn
    linarith
  have hsum : 0 ≤ (v.map (fun x => (x - mean v) ^ 2)).sum :=
    List.sum_nonneg (by
      intro y hy
      obtain ⟨x, _, rfl⟩ := List.mem_map.1 hy
      exact sq_nonneg _)
  refine ⟨?_, ?_, mean_eq v⟩
  · rw [hrw]; exact Real.sqrt_nonneg _
  · rw [hrw]; exact Real.sq_sqrt (div_nonneg hsum (le_of_lt hden))

/-- Witness for C10: `[2,4,4,4,5,5,7,9]` gives `sigma^2 == 32/7`. -/
theorem standardDeviation_bessel_witness :
    (0 ≤ standardDeviation Real.sqrt [2, 4, 4, 4, 5, 5, 7, 9] ∧
      standardDeviation Real.sqrt [2, 4, 4, 4, 5, 5, 7, 9] ^ 2 =
        (([2, 4, 4, 4, 5, 5, 7, 9] : List ℝ).map
          (fun x => (x - mean [2, 4, 4, 4, 5, 5, 7, 9]) ^ 2)).sum /
          ((([2, 4, 4, 4, 5, 5, 7, 9] : List ℝ).length : ℝ) - 1) ∧
      mean ([2, 4, 4, 4, 5, 5, 7, 9] : List ℝ) =
        ([2, 4, 4, 4, 5, 5, 7, 9] : List ℝ).sum /
          (([2, 4, 4, 4, 5, 5, 7, 9] : List ℝ).length : ℝ)) ∧
    standardDeviation Real.sqrt [2, 4, 4, 4, 5, 5, 7, 9] ^ 2 = 32 / 7 := by
  have h := standardDeviation_bessel [2, 4, 4, 4, 5, 5, 7, 9] (by simp)
  refine ⟨h, ?_⟩
  rw [h.2.1, h.2.2]
  norm_num

/-! ## Proofs: small samples, logarithms, equality checks -/

section LogNormal

variable {F : Type} [LinearOrderedField F]

/-- `isNegativeOrZero` is true exactly when some element is `<= 0`. -/
theorem isNegativeOrZero_iff : ∀ v : List F, isNegativeOrZero v = true ↔ ∃ x ∈ v, x ≤ 0
  | [] => by simp [isNegativeOrZero]
  | a :: tl => by
    rw [isNegativeOrZero]
    by_cases h : a ≤ 0
    · simp only [h, if_true, true_iff]
      exact ⟨a, List.mem_cons_self _ _, h⟩
    · simp only [h, if_false, isNegativeOrZero_iff tl, List.mem_cons]
      constructor
      · rintro ⟨x, hx, hx0⟩
        exact ⟨x, Or.inr hx, hx0⟩
      · rintro ⟨x, hx | hx, hx0⟩
        · exact absurd (hx ▸ hx0) h
        · exact ⟨x, hx, hx0⟩

end LogNormal

/-- C12. `lognormalStandardDeviation`: `isNegativeOrZero(v)` is true exactly when some
element of `v` is `<= 0`; in that case the call ends in `mooseError`; otherwise it returns
`standardDeviation` of the element-wise logarithms of `v`, in the same order. -/
theorem lognormalStandardDeviation_spec {F : Type} [LinearOrderedField F] (log sqrt : F → F)
    (v : List F) :
    (isNegativeOrZero v = true ↔ ∃ x ∈ v, x ≤ 0) ∧
    ((∃ x ∈ v, x ≤ 0) → lognormalStandardDeviation log sqrt v = Except.error
      (Fault.mooseError
        "One or more elements in the sample for calculating beta are non positive.\n")) ∧
    ((∀ x ∈ v, 0 < x) → lognormalStandardDeviation log sqrt v =
      Except.ok (standardDeviation sqrt (v.map log))) := by
  refine ⟨isNegativeOrZero_iff v, ?_, ?_⟩
  · intro h
    unfold lognormalStandardDeviation
    rw [if_pos ((isNegativeOrZero_iff v).2 h)]
  · intro h
    have hn : ¬ (isNegativeOrZero v = true) := by
      rw [isNegativeOrZero_iff]
      rintro ⟨x, hx, hx0⟩
      exact absurd (h x hx) (not_lt.2 hx0)
    unfold lognormalStandardDeviation
    rw [if_neg hn]
    rfl

/-- Witness for C12: `[1, -2, 3]` is rejected and `[1, 2, 3]` is passed on, over the reals
with `log = Real.log` and `sqrt = Real.sqrt`. -/
theorem lognormalStandardDeviation_spec_witness :
    lognormalStandardDeviation Real.log Real.sqrt [1, -2, 3] = Except.error
      (Fault.mooseError
        "One or more elements in the sample for calculating beta are non positive.\n") ∧
    lognormalStandardDeviation Real.log Real.sqrt [1, 2, 3] =
      Except.ok (standardDeviation Real.sqrt (([1, 2, 3] : List ℝ).map Real.log)) :=
  ⟨(lognormalStandardDeviation_spec Real.log Real.sqrt [1, -2, 3]).2.1
      ⟨-2, by simp, by norm_num⟩,
   (lognormalStandardDeviation_spec Real.log Real.sqrt [1, 2, 3]).2.2
      (by intro x hx; simp at hx; rcases hx with rfl | rfl | rfl <;> norm_num)⟩

section CheckEqual

variable {F : Type} [LinearOrderedField F]

/-- The loop of `checkEqual` on two vectors of the same size: true exactly when every pair
is within its tolerance. -/
theorem checkEqualLoop_iff (percent_error : F) :
    ∀ (v1 v2 : List F), v1.length = v2.length →
      (checkEqualLoop percent_error v1 v2 = true ↔
        ∀ (i : Nat) (a b : F), v1[i]? = some a → v2[i]? = some b →
          |a - b| ≤ |a * percent_error / 100|)
  | [], [], _ => by simp [checkEqualLoop]
  | [], _ :: _, h => by simp at h
  | _ :: _, [], h => by simp at h
  | x :: xs, y :: ys, h => by
    have hlen : xs.length = ys.length := by simpa using h
    rw [checkEqualLoop]
    by_cases hxy : |x - y| ≤ |x * percent_error / 100|
    · simp only [absoluteFuzzyEqual, hxy, decide_True, Bool.not_true, Bool.false_eq_true,
        if_false, checkEqualLoop_iff percent_error xs ys hlen]
      constructor
      · intro hall i a b ha hb
        cases i with
        | zero =>
          simp only [List.getElem?_cons_zero, Option.some.injEq] at ha hb
          rw [← ha, ← hb]; exact hxy
        | succ i =>
          simp only [List.getElem?_cons_succ] at ha hb
          exact hall i a b ha hb
      · intro hall i a b ha hb
        exact hall (i + 1) a b (by simpa using ha) (by simpa using hb)
    · simp only [absoluteFuzzyEqual, hxy, decide_False, Bool.not_false, if_true,
        Bool.false_eq_true, false_iff]
      intro hall
      exact hxy (hall 0 x y (by simp) (by simp))

end CheckEqual

/-- C13. `checkEqual` characterisation: for `percent_error >= 0`, `checkEqual(v1, v2,
percent_error)` is true if and only if the sizes agree and every index `i` has
`|v1[i] - v2[i]| <= |v1[i]| * percent_error / 100`; it is false when the sizes differ; and
with `percent_error == 0` it is true exactly when `v1 == v2`. -/
theorem checkEqual_iff {F : Type} [LinearOrderedField F] (v1 v2 : List F) (percent_error : F)
    (hpe : 0 ≤ percent_error) :
    (checkEqual v1 v2 percent_error = true ↔
      v1.length = v2.length ∧
      ∀ (i : Nat) (a b : F), v1[i]? = some a → v2[i]? = some b →
        |a - b| ≤ |a| * percent_error / 100) ∧
    (v1.length ≠ v2.length → checkEqual v1 v2 percent_error = false) ∧
    (checkEqual v1 v2 0 = true ↔ v1 = v2) := by
  have habs : ∀ a : F, |a * percent_error / 100| = |a| * percent_error / 100 := by
    intro a
    rw [abs_div, abs_mul, abs_of_nonneg hpe, abs_of_pos (by norm_num : (0 : F) < 100)]
  refine ⟨?_, ?_, ?_⟩
  · unfold checkEqual
    by_cases hlen : v1.length = v2.length
    · simp only [hlen, ne_eq, not_true_eq_false, if_false, true_and]
      rw [checkEqualLoop_iff percent_error v1 v2 hlen]
      simp only [habs]
    · simp [hlen]
  · intro hlen
    unfold checkEqual
    rw [if_pos hlen]
  · unfold checkEqual
    by_cases hlen : v1.length = v2.length
    · simp only [hlen, ne_eq, not_true_eq_false, if_false]
      rw [checkEqualLoop_iff 0 v1 v2 hlen]
      constructor
      · intro hall
        apply List.ext_getElem? 
        intro i
        by_cases hi : i < v1.length
        · have hi2 : i < v2.length := hlen ▸ hi
          have := hall i v1[i] v2[i] (List.getElem?_eq_getElem hi) (List.getElem?_eq_getElem hi2)
          simp only [mul_zero, zero_div, abs_zero, abs_nonpos_iff, sub_eq_zero] at this
          rw [List.getElem?_eq_getElem hi, List.getElem?_eq_getElem hi2, this]
        · rw [List.getElem?_eq_none (not_lt.1 hi),
            List.getElem?_eq_none (hlen ▸ not_lt.1 hi)]
      · rintro rfl i a b ha hb
        rw [ha] at hb
        simp only [Option.some.injEq] at hb
        simp [hb]
    · simp only [hlen, ne_eq, not_false_eq_true, if_true, Bool.false_eq_true, false_iff]
      intro h
      exact hlen (by rw [h])

/-- Witness for C13: `([1,2],[1,2],0)` true, `([1,2],[1,2.01],0)` false,
`([1,2],[1,2.01],100)` true. -/
theorem checkEqual_iff_witness :
    ((checkEqual [(1 : ℚ), 2] [1, 201 / 100] 100 = true ↔
      ([(1 : ℚ), 2]).length = ([1, 201 / 100] : List ℚ).length ∧
      ∀ (i : Nat) (a b : ℚ), ([1, 2] : List ℚ)[i]? = some a →
        ([1, 201 / 100] : List ℚ)[i]? = some b → |a - b| ≤ |a| * 100 / 100) ∧
    (([(1 : ℚ), 2]).length ≠ ([1, 201 / 100] : List ℚ).length →
      checkEqual [(1 : ℚ), 2] [1, 201 / 100] 100 = false) ∧
    (checkEqual [(1 : ℚ), 2] [1, 201 / 100] 0 = true ↔ [(1 : ℚ), 2] = [1, 201 / 100])) ∧
    checkEqual [(1 : ℚ), 2] [1, 2] 0 = true ∧
    checkEqual [(1 : ℚ), 2] [1, 201 / 100] 0 = false ∧
    checkEqual [(1 : ℚ), 2] [1, 201 / 100] 100 = true :=
  ⟨checkEqual_iff [1, 2] [1, 201 / 100] 100 (by norm_num), by decide!, by decide!, by decide!⟩

/-! ## Proofs: zeropad -/

/-- The characters of the pad after `count` passes of the loop. -/
theorem zeropadLoop_data : ∀ (count : Nat) (pad : String),
    (zeropadLoop count pad).data = pad.data ++ List.replicate count '0'
  | 0, pad => by simp [zeropadLoop]
  | count + 1, pad => by
    rw [zeropadLoop, zeropadLoop_data count (pad ++ "0"), String.data_append,
      List.replicate_succ, List.append_assoc]
    rfl

/-- The characters of the result of `zeropad`. -/
theorem zeropad_data (n n_tot : Nat) :
    (zeropad n n_tot).data =
      List.replicate (sizeSub (Nat.repr n_tot).length (Nat.repr n).length) '0' ++
        (Nat.repr n).data := by
  unfold zeropad
  simp only [String.data_append, zeropadLoop_data]
  rfl

/-- The length of the result of `zeropad`: pad count plus the digits of `n`. -/
theorem zeropad_length (n n_tot : Nat) :
    (zeropad n n_tot).length =
      sizeSub (Nat.repr n_tot).length (Nat.repr n).length + (Nat.repr n).length := by
  rw [String.length, zeropad_data, List.length_append, List.length_replicate]
  rfl

/-- The character of a decimal digit has that digit as its value. -/
theorem digitChar_value : ∀ d : Nat, d < 10 → (Nat.digitChar d).toNat - 48 = d := by
  decide

/-- The digits that `Nat.toDigitsCore` puts in front of `ds` have the value `n`. -/
theorem toDigitsCore_value : ∀ (fuel n : Nat) (ds : List Char), n < fuel →
    ∃ front, Nat.toDigitsCore 10 fuel n ds = front ++ ds ∧
      front.foldl (fun value c => value * 10 + (c.toNat - 48)) 0 = n
  | 0, n, _, h => absurd h (Nat.not_lt_zero n)
  | fuel + 1, n, ds, h => by
    rw [Nat.toDigitsCore]
    by_cases h0 : n / 10 = 0
    · refine ⟨[Nat.digitChar (n % 10)], by simp [h0], ?_⟩
      simp only [List.foldl_cons, List.foldl_nil, zero_mul, zero_add]
      rw [digitChar_value _ (Nat.mod_lt _ (by decide))]
      omega
    · obtain ⟨front, hfront, hval⟩ :=
        toDigitsCore_value fuel (n / 10) (Nat.digitChar (n % 10) :: ds) (by omega)
      refine ⟨front ++ [Nat.digitChar (n % 10)], by simp [h0, hfront], ?_⟩
      rw [List.foldl_append, hval]
      simp only [List.foldl_cons, List.foldl_nil]
      rw [digitChar_value _ (Nat.mod_lt _ (by decide))]
      omega

/-- Reading back the decimal representation of `n` gives `n`. -/
theorem repr_value (n : Nat) :
    (Nat.repr n).data.foldl (fun value c => value * 10 + (c.toNat - 48)) 0 = n := by
  obtain ⟨front, hfront, hval⟩ := toDigitsCore_value (n + 1) n [] (Nat.lt_succ_self n)
  have : (Nat.repr n).data = front := by
    rw [List.append_nil] at hfront
    rw [← hfront]
    rfl
  rw [this, hval]

/-- Leading zeros do not change the value read. -/
theorem foldl_replicate_zero : ∀ (k : Nat) (l : List Char),
    (List.replicate k '0' ++ l).foldl (fun value c => value * 10 + (c.toNat - 48)) 0 =
      l.foldl (fun value c => value * 10 + (c.toNat - 48)) 0
  | 0, l => by simp
  | k + 1, l => by
    rw [List.replicate_succ, List.cons_append, List.foldl_cons]
    have : (0 : Nat) * 10 + ('0'.toNat - 48) = 0 := by decide
    rw [this]
    exact foldl_replicate_zero k l

/-- C14. `zeropad` pads to the width of `n_tot`: when `n` has no more decimal digits than
`n_tot`, `zeropad(n, n_tot)` is the decimal representation of `n` preceded by exactly
`digits(n_tot) - digits(n)` characters `'0'`, its length is `digits(n_tot)`, and read as a
decimal number it is `n`. -/
theorem zeropad_pads (n n_tot : Nat) (h : (Nat.repr n).length ≤ (Nat.repr n_tot).length) :
    zeropad n n_tot =
      String.mk (List.replicate ((Nat.repr n_tot).length - (Nat.repr n).length) '0') ++
        Nat.repr n ∧
    (zeropad n n_tot).length = (Nat.repr n_tot).length ∧
    parseDecimal (zeropad n n_tot) = n := by
  have hsub := sizeSub_of_le _ _ h
  refine ⟨?_, ?_, ?_⟩
  · apply String.ext
    rw [zeropad_data, hsub, String.data_append]
  · rw [zeropad_length, hsub]
    omega
  · rw [parseDecimal, zeropad_data, foldl_replicate_zero]
    exact repr_value n

/-- Witness for C14: `zeropad(3,100) == "003"`, `zeropad(15,100) == "015"`,
`zeropad(100,100) == "100"`. -/
theorem zeropad_pads_witness :
    (zeropad 3 100 =
      String.mk (List.replicate ((Nat.repr 100).length - (Nat.repr 3).length) '0') ++
        Nat.repr 3 ∧
    (zeropad 3 100).length = (Nat.repr 100).length ∧
    parseDecimal (zeropad 3 100) = 3) ∧
    zeropad 3 100 = "003" ∧ zeropad 15 100 = "015" ∧ zeropad 100 100 = "100" :=
  ⟨zeropad_pads 3 100 (by decide), by decide, by decide, by decide⟩

/-- C15 (the code at the failing input). For `n = 100`, `n_tot = 5` the pad count
`1 - 3` wraps to `2^64 - 2`; the loop runs that many times and the result has
`2^64 + 1` characters, so it is not `"100"`. -/
theorem zeropad_wider_wraps :
    sizeSub (Nat.repr 5).length (Nat.repr 100).length = 2 ^ 64 - 2 ∧
    (zeropad 100 5).length = 2 ^ 64 + 1 ∧
    zeropad 100 5 ≠ Nat.repr 100 := by
  have hlen : (zeropad 100 5).length = 2 ^ 64 + 1 := by
    rw [zeropad_length]
    decide
  refine ⟨by decide, hlen, ?_⟩
  intro h
  rw [h] at hlen
  revert hlen
  decide

/-! ## Proofs: equation of motion -/

section EquationOfMotion

variable {F : Type} [LinearOrderedField F]

/-- One pass of the inner loop: the new state `st2` satisfies the oscillator equation for
the sample `a` and the two average-acceleration relations. -/
theorem oscStep_equation (om_n om_d reg_dt kd : F) (st st2 : OscState F) (a : F)
    (hdt : reg_dt ≠ 0) (hkd : kd = 1 + om_d * reg_dt + reg_dt * reg_dt * om_n * om_n / 4)
    (hkd0 : kd ≠ 0) (hst : st2 = oscStep om_d reg_dt (reg_dt * reg_dt) kd st a) :
    st2.acc1 + 2 * om_d * st2.vel1 + om_n ^ 2 * st2.dis1 = -a ∧
    st2.vel1 = st.vel1 + reg_dt / 2 * (st.acc1 + st2.acc1) ∧
    st2.dis1 = st.dis1 + reg_dt * st.vel1 + reg_dt ^ 2 / 4 * (st.acc1 + st2.acc1) := by
  have key : st2.dis1 * kd = (1 + om_d * reg_dt) * st.dis1 +
      (reg_dt + 1 / 2 * om_d * (reg_dt * reg_dt)) * st.vel1 +
      reg_dt * reg_dt / 4 * st.acc1 - reg_dt * reg_dt / 4 * a := by
    rw [hst]
    exact div_mul_cancel₀ _ hkd0
  have hacc : st2.acc1 =
      4 / (reg_dt * reg_dt) * (st2.dis1 - st.dis1) - 4 / reg_dt * st.vel1 - st.acc1 := by
    rw [hst]; rfl
  have hvel : st2.vel1 = st.vel1 + reg_dt / 2 * (st.acc1 + st2.acc1) := by
    rw [hst]; rfl
  refine ⟨?_, hvel, ?_⟩
  · rw [hvel, hacc]
    rw [hkd] at key
    field_simp
    linear_combination (8 * reg_dt ^ 4) * key
  · rw [hacc]
    field_simp
    ring

/-- Processing one more sample is one more pass of the loop body. -/
theorem oscIntegrate_take_succ (om_n xi reg_dt h0 : F) (samples : List F) (j : Nat)
    (hj : j < samples.length) :
    oscIntegrate om_n xi reg_dt h0 (samples.take (j + 1)) =
      oscStep (om_n * xi) reg_dt (reg_dt * reg_dt)
        (1 + om_n * xi * reg_dt + reg_dt * reg_dt * om_n * om_n / 4)
        (oscIntegrate om_n xi reg_dt h0 (samples.take j)) samples[j] := by
  unfold oscIntegrate
  simp only [List.take_succ, List.getElem?_eq_getElem hj, Option.toList_some,
    List.foldl_append, List.foldl_cons, List.foldl_nil]

/-- The implicit coefficient is at least 1 when `om_n`, `xi` and `reg_dt` are not
negative. -/
theorem kd_ge_one (om_n xi reg_dt : F) (hom : 0 ≤ om_n) (hxi : 0 ≤ xi) (hdt : 0 ≤ reg_dt) :
    1 ≤ 1 + om_n * xi * reg_dt + reg_dt * reg_dt * om_n * om_n / 4 := by
  have h1 : 0 ≤ om_n * xi * reg_dt := mul_nonneg (mul_nonneg hom hxi) hdt
  have h2 : 0 ≤ reg_dt * reg_dt * om_n * om_n / 4 := by
    apply div_nonneg _ (by norm_num)
    have : reg_dt * reg_dt * om_n * om_n = (reg_dt * om_n) * (reg_dt * om_n) := by ring
    rw [this]
    exact mul_self_nonneg _
  linarith

end EquationOfMotion

/-- C16. The `responseSpectrum` step satisfies the oscillator equation of motion (real
arithmetic): for every frequency bin `n`, `xi >= 0`, `reg_dt > 0` and a non-empty history,
with `om_d = om_n * xi`: `kd = 1 + om_d*reg_dt + reg_dt^2*om_n^2/4 >= 1`; the start state
has `acc1 + 2*om_d*vel1 + om_n^2*dis1 == -history_acc[0]`; and every step `j` takes the
state `(dis1, vel1, acc1)` to a state `(dis2, vel2, acc2)` with
`acc2 + 2*om_d*vel2 + om_n^2*dis2 == -history_acc[j]`,
`vel2 == vel1 + reg_dt/2*(acc1 + acc2)` and
`dis2 == dis1 + reg_dt*vel1 + reg_dt^2/4*(acc1 + acc2)`. The peak of `|dis2|` over these
steps is the displacement the call returns for the bin. -/
theorem responseSpectrum_equation_of_motion (freq_start freq_end : ℝ) (freq_num : Nat)
    (history_acc : List ℝ) (xi reg_dt : ℝ) (hxi : 0 ≤ xi) (hdt : 0 < reg_dt)
    (hne : history_acc ≠ []) (n : Nat) (hn : n < freq_num) :
    ∃ (om_n om_d kd : ℝ) (st : Nat → OscState ℝ),
      om_n = binOmega (Real.logb 10) (fun y => (10 : ℝ) ^ y) freq_start freq_end freq_num n ∧
      om_d = om_n * xi ∧
      kd = 1 + om_d * reg_dt + reg_dt ^ 2 * om_n ^ 2 / 4 ∧
      st = binState (Real.logb 10) (fun y => (10 : ℝ) ^ y) freq_start freq_end freq_num
        history_acc xi reg_dt n ∧
      1 ≤ kd ∧
      (st 0).acc1 + 2 * om_d * (st 0).vel1 + om_n ^ 2 * (st 0).dis1 = -history_acc.headD 0 ∧
      (∀ (j : Nat) (a : ℝ), history_acc[j]? = some a →
        (st (j + 1)).acc1 + 2 * om_d * (st (j + 1)).vel1 + om_n ^ 2 * (st (j + 1)).dis1 = -a ∧
        (st (j + 1)).vel1 = (st j).vel1 + reg_dt / 2 * ((st j).acc1 + (st (j + 1)).acc1) ∧
        (st (j + 1)).dis1 = (st j).dis1 + reg_dt * (st j).vel1 +
          reg_dt ^ 2 / 4 * ((st j).acc1 + (st (j + 1)).acc1)) ∧
      ∃ freq disp vel acc : List ℝ,
        responseSpectrum (Real.logb 10) (fun y => (10 : ℝ) ^ y) freq_start freq_end freq_num
          history_acc xi reg_dt = Except.ok [freq, disp, vel, acc] ∧
        disp[n]? = some (st history_acc.length).pdmax := by
  have hom : 0 ≤ binOmega (Real.logb 10) (fun y => (10 : ℝ) ^ y) freq_start freq_end
      freq_num n := by
    unfold binOmega binFreq
    have : (0 : ℝ) < (10 : ℝ) ^ (Real.logb 10 freq_start + (n : ℝ) *
        ((Real.logb 10 freq_end - Real.logb 10 freq_start) / ((freq_num - 1 : Nat) : ℝ))) :=
      Real.rpow_pos_of_pos (by norm_num) _
    positivity
  have hkd := kd_ge_one _ xi reg_dt hom hxi (le_of_lt hdt)
  refine ⟨_, _, _, _, rfl, rfl, rfl, rfl, ?_, ?_, ?_, ?_⟩
  · have : reg_dt ^ 2 * binOmega (Real.logb 10) (fun y => (10 : ℝ) ^ y) freq_start freq_end
        freq_num n ^ 2 / 4 = reg_dt * reg_dt * binOmega (Real.logb 10)
        (fun y => (10 : ℝ) ^ y) freq_start freq_end freq_num n * binOmega (Real.logb 10)
        (fun y => (10 : ℝ) ^ y) freq_start freq_end freq_num n / 4 := by ring
    rw [this]
    exact hkd
  · simp [binState, oscIntegrate]
  · intro j a ha
    obtain ⟨hj, rfl⟩ := List.getElem?_eq_some.1 ha
    exact oscStep_equation _ _ reg_dt _ _ _ _ (ne_of_gt hdt) rfl
      (ne_of_gt (lt_of_lt_of_le one_pos hkd))
      (oscIntegrate_take_succ _ xi reg_dt _ history_acc j hj)
  · refine ⟨_, _, _, _, responseSpectrum_eq _ _ freq_start freq_end freq_num history_acc xi
      reg_dt hne, ?_⟩
    rw [getElem?_map_range]
    refine ⟨hn, ?_⟩
    simp [binPdmax, binState]

/-- Witness for C16: bin 1 of two bins between 1 Hz and 10 Hz, history `[1, -2]`, 5 %
damping, `reg_dt = 0.01`. -/
theorem responseSpectrum_equation_of_motion_witness :
    ∃ (om_n om_d kd : ℝ) (st : Nat → OscState ℝ),
      om_n = binOmega (Real.logb 10) (fun y => (10 : ℝ) ^ y) 1 10 2 1 ∧
      om_d = om_n * (1 / 20) ∧
      kd = 1 + om_d * (1 / 100) + (1 / 100 : ℝ) ^ 2 * om_n ^ 2 / 4 ∧
      st = binState (Real.logb 10) (fun y => (10 : ℝ) ^ y) 1 10 2 [1, -2] (1 / 20)
        (1 / 100) 1 ∧
      1 ≤ kd ∧
      (st 0).acc1 + 2 * om_d * (st 0).vel1 + om_n ^ 2 * (st 0).dis1 =
        -([1, -2] : List ℝ).headD 0 ∧
      (∀ (j : Nat) (a : ℝ), ([1, -2] : List ℝ)[j]? = some a →
        (st (j + 1)).acc1 + 2 * om_d * (st (j + 1)).vel1 + om_n ^ 2 * (st (j + 1)).dis1 = -a ∧
        (st (j + 1)).vel1 =
          (st j).vel1 + (1 / 100) / 2 * ((st j).acc1 + (st (j + 1)).acc1) ∧
        (st (j + 1)).dis1 = (st j).dis1 + (1 / 100) * (st j).vel1 +
          (1 / 100 : ℝ) ^ 2 / 4 * ((st j).acc1 + (st (j + 1)).acc1)) ∧
      ∃ freq disp vel acc : List ℝ,
        responseSpectrum (Real.logb 10) (fun y => (10 : ℝ) ^ y) 1 10 2 [1, -2] (1 / 20)
          (1 / 100) = Except.ok [freq, disp, vel, acc] ∧
        disp[1]? = some (st ([1, -2] : List ℝ).length).pdmax :=
  responseSpectrum_equation_of_motion 1 10 2 [1, -2] (1 / 20) (1 / 100) (by norm_num)
    (by norm_num) (by simp) 1 (by decide)

/-! ## Proofs: homogeneity of the response spectrum -/

section Homogeneity

variable {F : Type} [LinearOrderedField F]

/-- One pass of the inner loop commutes with scaling the state and the sample by `c`. -/
theorem oscStep_scale (om_d reg_dt dt2 kd c : F) (st : OscState F) (a : F) :
    oscStep om_d reg_dt dt2 kd (OscState.scale c st) (c * a) =
      OscState.scale c (oscStep om_d reg_dt dt2 kd st a) := by
  have hdis : (oscStep om_d reg_dt dt2 kd (OscState.scale c st) (c * a)).dis1 =
      c * (oscStep om_d reg_dt dt2 kd st a).dis1 := by
    simp only [oscStep, OscState.scale]
    ring
  have hacc : (oscStep om_d reg_dt dt2 kd (OscState.scale c st) (c * a)).acc1 =
      c * (oscStep om_d reg_dt dt2 kd st a).acc1 := by
    simp only [oscStep, OscState.scale]
    ring
  have hvel : (oscStep om_d reg_dt dt2 kd (OscState.scale c st) (c * a)).vel1 =
      c * (oscStep om_d reg_dt dt2 kd st a).vel1 := by
    simp only [oscStep, OscState.scale]
    ring
  have hpd : (oscStep om_d reg_dt dt2 kd (OscState.scale c st) (c * a)).pdmax =
      |c| * (oscStep om_d reg_dt dt2 kd st a).pdmax := by
    rw [oscStep_pdmax, oscStep_pdmax, hdis, abs_mul]
    have hst : (OscState.scale c st).pdmax = |c| * st.pdmax := rfl
    rw [hst]
    rcases eq_or_lt_of_le (abs_nonneg c) with h0 | hpos
    · rw [← h0]; simp
    · by_cases h : |(oscStep om_d reg_dt dt2 kd st a).dis1| > st.pdmax
      · rw [if_pos h, if_pos (mul_lt_mul_of_pos_left h hpos)]
      · rw [if_neg h, if_neg (fun h2 => h (lt_of_mul_lt_mul_left h2 (le_of_lt hpos)))]
  cases hr : oscStep om_d reg_dt dt2 kd (OscState.scale c st) (c * a) with
  | mk d v ac p =>
    rw [hr] at hdis hacc hvel hpd
    simp only at hdis hacc hvel hpd
    rw [OscState.scale, hdis, hacc, hvel, hpd]

/-- The inner loop commutes with scaling the start state and every sample by `c`. -/
theorem oscFold_scale (om_d reg_dt dt2 kd c : F) : ∀ (samples : List F) (st : OscState F),
    (samples.map (fun a => c * a)).foldl (oscStep om_d reg_dt dt2 kd) (OscState.scale c st) =
      OscState.scale c (samples.foldl (oscStep om_d reg_dt dt2 kd) st)
  | [], _ => rfl
  | a :: tl, st => by
    rw [List.map_cons, List.foldl_cons, List.foldl_cons, oscStep_scale]
    exact oscFold_scale om_d reg_dt dt2 kd c tl _

/-- The integration of one bin commutes with scaling the history by `c`. -/
theorem oscIntegrate_scale (om_n xi reg_dt h0 c : F) (samples : List F) :
    oscIntegrate om_n xi reg_dt (c * h0) (samples.map (fun a => c * a)) =
      OscState.scale c (oscIntegrate om_n xi reg_dt h0 samples) := by
  unfold oscIntegrate
  simp only
  rw [← oscFold_scale]
  congr 1
  simp only [OscState.scale, mul_zero]
  congr 1
  ring

/-- The peak displacement of a bin for the history scaled by `c`. -/
theorem binPdmax_scale (log10 pow10 : F → F) (freq_start freq_end : F) (freq_num : Nat)
    (history_acc : List F) (xi reg_dt c : F) (n : Nat) :
    binPdmax log10 pow10 freq_start freq_end freq_num (history_acc.map (fun a => c * a)) xi
      reg_dt n =
    |c| * binPdmax log10 pow10 freq_start freq_end freq_num history_acc xi reg_dt n := by
  unfold binPdmax
  have hhead : (history_acc.map (fun a => c * a)).headD 0 = c * history_acc.headD 0 := by
    cases history_acc <;> simp
  rw [hhead, oscIntegrate_scale]
  rfl

end Homogeneity

/-- C20. `responseSpectrum` is positively homogeneous in the excitation: for every scalar
`c` and non-empty history, the call on the history scaled element-wise by `c` returns the
same frequency vector, and displacement, pseudo-velocity and pseudo-acceleration vectors
that are `|c|` times those of the unscaled history; an all-zero history gives all-zero
spectra. -/
theorem responseSpectrum_homogeneous {F : Type} [LinearOrderedField F]
    (log10 pow10 : F → F) (freq_start freq_end : F) (freq_num : Nat)
    (history_acc : List F) (xi reg_dt c : F) (hne : history_acc ≠ []) :
    ∃ freq disp vel acc : List F,
      responseSpectrum log10 pow10 freq_start freq_end freq_num history_acc xi reg_dt =
        Except.ok [freq, disp, vel, acc] ∧
      responseSpectrum log10 pow10 freq_start freq_end freq_num
        (history_acc.map (fun a => c * a)) xi reg_dt =
        Except.ok [freq, disp.map (fun d => |c| * d), vel.map (fun v => |c| * v),
          acc.map (fun a => |c| * a)] ∧
      ((∀ a ∈ history_acc, a = 0) →
        (∀ d ∈ disp, d = 0) ∧ (∀ v ∈ vel, v = 0) ∧ (∀ a ∈ acc, a = 0)) := by
  refine ⟨_, _, _, _, responseSpectrum_eq log10 pow10 freq_start freq_end freq_num history_acc
    xi reg_dt hne, ?_, ?_⟩
  · rw [responseSpectrum_eq log10 pow10 freq_start freq_end freq_num _ xi reg_dt
      (by simpa using hne)]
    have h1 : (List.range freq_num).map (binPdmax log10 pow10 freq_start freq_end freq_num
        (history_acc.map (fun a => c * a)) xi reg_dt) =
        ((List.range freq_num).map (binPdmax log10 pow10 freq_start freq_end freq_num
          history_acc xi reg_dt)).map (fun d => |c| * d) := by
      rw [List.map_map]
      apply List.map_congr_left
      intro n _
      simp only [Function.comp, binPdmax_scale]
    have h2 : (List.range freq_num).map (fun n =>
        binPdmax log10 pow10 freq_start freq_end freq_num
          (history_acc.map (fun a => c * a)) xi reg_dt n *
          binOmega log10 pow10 freq_start freq_end freq_num n) =
        ((List.range freq_num).map (fun n =>
          binPdmax log10 pow10 freq_start freq_end freq_num history_acc xi reg_dt n *
            binOmega log10 pow10 freq_start freq_end freq_num n)).map (fun v => |c| * v) := by
      rw [List.map_map]
      apply List.map_congr_left
      intro n _
      simp only [Function.comp, binPdmax_scale]
      ring
    have h3 : (List.range freq_num).map (fun n =>
        binPdmax log10 pow10 freq_start freq_end freq_num
          (history_acc.map (fun a => c * a)) xi reg_dt n *
          binOmega log10 pow10 freq_start freq_end freq_num n *
          binOmega log10 pow10 freq_start freq_end freq_num n) =
        ((List.range freq_num).map (fun n =>
          binPdmax log10 pow10 freq_start freq_end freq_num history_acc xi reg_dt n *
            binOmega log10 pow10 freq_start freq_end freq_num n *
            binOmega log10 pow10 freq_start freq_end freq_num n)).map (fun a => |c| * a) := by
      rw [List.map_map]
      apply List.map_congr_left
      intro n _
      simp only [Function.comp, binPdmax_scale]
      ring
    rw [h1, h2, h3]
  · intro hzero
    have hmap : history_acc.map (fun a => (0 : F) * a) = history_acc := by
      conv_rhs => rw [← List.map_id history_acc]
      apply List.map_congr_left
      intro a ha
      simp [hzero a ha]
    have hpd : ∀ n, binPdmax log10 pow10 freq_start freq_end freq_num history_acc xi
        reg_dt n = 0 := by
      intro n
      have := binPdmax_scale log10 pow10 freq_start freq_end freq_num history_acc xi reg_dt 0 n
      rw [hmap] at this
      rw [this]; simp
    refine ⟨?_, ?_, ?_⟩ <;>
    · intro x hx
      obtain ⟨n, _, rfl⟩ := List.mem_map.1 hx
      simp [hpd n]

/-- Witness for C20: the history `[1, -2]` scaled by `c = -3`, two bins between 1 Hz and
10 Hz. -/
theorem responseSpectrum_homogeneous_witness :
    ∃ freq disp vel acc : List ℝ,
      responseSpectrum (Real.logb 10) (fun y => (10 : ℝ) ^ y) 1 10 2 [1, -2] (1 / 20)
        (1 / 100) = Except.ok [freq, disp, vel, acc] ∧
      responseSpectrum (Real.logb 10) (fun y => (10 : ℝ) ^ y) 1 10 2
        (([1, -2] : List ℝ).map (fun a => -3 * a)) (1 / 20) (1 / 100) =
        Except.ok [freq, disp.map (fun d => |(-3 : ℝ)| * d), vel.map (fun v => |(-3 : ℝ)| * v),
          acc.map (fun a => |(-3 : ℝ)| * a)] ∧
      ((∀ a ∈ ([1, -2] : List ℝ), a = 0) →
        (∀ d ∈ disp, d = 0) ∧ (∀ v ∈ vel, v = 0) ∧ (∀ a ∈ acc, a = 0)) :=
  responseSpectrum_homogeneous (Real.logb 10) (fun y => (10 : ℝ) ^ y) 1 10 2 [1, -2] (1 / 20)
    (1 / 100) (-3) (by simp)

/-! ## Proofs: greaterProbability -/

section GreaterProbability

variable {F : Type} [LinearOrderedField F]

/-- With a step that is not positive the loop never leaves a point below `max_demand`. -/
theorem greaterProbabilityWhile_diverges (pdf_demand cdf_capacity : F → F)
    (delta max_demand : F) (hdelta : delta ≤ 0) :
    ∀ (fuel : Nat) (prob param : F), param < max_demand →
      greaterProbabilityWhile pdf_demand cdf_capacity delta max_demand fuel prob param =
        Except.error Fault.outOfFuel
  | 0, _, _, _ => rfl
  | fuel + 1, prob, param, h => by
    rw [greaterProbabilityWhile, if_pos h]
    exact greaterProbabilityWhile_diverges pdf_demand cdf_capacity delta max_demand hdelta fuel
      _ _ (lt_of_le_of_lt (by linarith) h)

/-- The loop run from `param`: `K` trapezoid terms are added when the `K`-th grid point is
the first one not below `max_demand`. -/
theorem greaterProbabilityWhile_sum (pdf_demand cdf_capacity : F → F) (delta max_demand : F) :
    ∀ (K fuel : Nat) (prob param : F), K < fuel →
      (∀ k, k < K → param + (k : F) * delta < max_demand) →
      max_demand ≤ param + (K : F) * delta →
      greaterProbabilityWhile pdf_demand cdf_capacity delta max_demand fuel prob param =
        Except.ok (prob + ∑ k in Finset.range K,
          delta * (pdf_demand (param + (k : F) * delta) *
              cdf_capacity (param + (k : F) * delta) +
            pdf_demand (param + (k : F) * delta + delta) *
              cdf_capacity (param + (k : F) * delta + delta)) / 2)
  | 0, fuel, prob, param, hf, _, hK => by
    obtain ⟨f, rfl⟩ : ∃ f, fuel = f + 1 := ⟨fuel - 1, by omega⟩
    have : ¬ param < max_demand := by
      simp only [Nat.cast_zero, zero_mul, add_zero] at hK
      exact not_lt.2 hK
    rw [greaterProbabilityWhile, if_neg this]
    simp [pure, Except.pure]
  | K + 1, fuel, prob, param, hf, hlt, hK => by
    obtain ⟨f, rfl⟩ : ∃ f, fuel = f + 1 := ⟨fuel - 1, by omega⟩
    have h0 : param < max_demand := by
      have := hlt 0 (Nat.succ_pos K)
      simpa using this
    rw [greaterProbabilityWhile, if_pos h0]
    simp only
    rw [greaterProbabilityWhile_sum pdf_demand cdf_capacity delta max_demand K f _
      (param + delta) (by omega)
      (fun k hk => by
        have := hlt (k + 1) (by omega)
        have e : param + delta + (k : F) * delta = param + ((k + 1 : Nat) : F) * delta := by
          push_cast; ring
        rw [e]; exact this)
      (by
        have e : param + delta + (K : F) * delta = param + ((K + 1 : Nat) : F) * delta := by
          push_cast; ring
        rw [e]; exact hK)]
    rw [Finset.sum_range_succ' _ K]
    simp only [Nat.cast_zero, zero_mul, add_zero, Nat.cast_add, Nat.cast_one]
    congr 1
    have e : ∀ k : Nat, param + delta + (k : F) * delta = param + ((k : F) + 1) * delta := by
      intro k; ring
    simp only [e]
    ring

end GreaterProbability

/-- A demand whose median is not positive and whose 0.1st percentile lies below its 99.9th
percentile makes `greaterProbability` hang: no amount of fuel gives a result. This covers
every normal distribution with mean `<= 0`. -/
theorem greaterProbability_diverges {D F : Type} [LinearOrderedField F]
    (quantile pdf cdf : D → F → F) (median_of : D → F) (demand capacity : D)
    (hmed : median_of demand ≤ 0)
    (hq : quantile demand (1 / 1000) < quantile demand (999 / 1000)) (fuel : Nat) :
    greaterProbability quantile pdf cdf median_of fuel demand capacity =
      Except.error Fault.outOfFuel := by
  unfold greaterProbability
  exact greaterProbabilityWhile_diverges _ _ _ _
    (div_nonpos_of_nonpos_of_nonneg hmed (by norm_num)) fuel _ _ hq

/-- C17 (the code at a failing input). For the uniform distribution on `[-1, 1]` as demand
(`quantile p = 2 p - 1`, `median = 0`, `pdf = 1/2`, `cdf x = (x + 1)/2`) the step
`delta = median/1000` is 0, `param` stays at `quantile(0.001) = -0.998 < 0.998`, and the
loop `while (param < max_demand)` never returns, whatever the fuel. -/
theorem greaterProbability_zero_median_diverges :
    ¬ ∃ (fuel : Nat) (r : ℚ),
      greaterProbability (D := Unit) (fun _ p => 2 * p - 1) (fun _ _ => 1 / 2)
        (fun _ x => (x + 1) / 2) (fun _ => 0) fuel () () = Except.ok r := by
  rintro ⟨fuel, r, h⟩
  unfold greaterProbability at h
  rw [greaterProbabilityWhile_diverges _ _ _ _ (by norm_num) fuel _ _ (by norm_num)] at h
  exact absurd h (by simp)

/-- The loop of `greaterProbability` where it does terminate, `median(demand) > 0`:
with `delta = median(demand)/1000`, `x_k = quantile(demand, 0.001) + k*delta` and `K` the
least `k` with `x_k >= quantile(demand, 0.999)`, every fuel above `K` returns the sum of
the trapezoid terms `delta*(g(x_k) + g(x_k + delta))/2`, `k = 0 .. K-1`, where
`g(x) = pdf(demand, x)*cdf(capacity, x)`. -/
theorem greaterProbability_terminates {D F : Type} [LinearOrderedField F] [Archimedean F]
    (quantile pdf cdf : D → F → F) (median_of : D → F) (demand capacity : D)
    (hmed : 0 < median_of demand) :
    ∃ K : Nat,
      (∀ k, k < K → quantile demand (1 / 1000) + (k : F) * (median_of demand / 1000) <
        quantile demand (999 / 1000)) ∧
      quantile demand (999 / 1000) ≤
        quantile demand (1 / 1000) + (K : F) * (median_of demand / 1000) ∧
      ∀ fuel, K < fuel →
        greaterProbability quantile pdf cdf median_of fuel demand capacity =
          Except.ok (∑ k in Finset.range K,
            median_of demand / 1000 *
              (pdf demand (quantile demand (1 / 1000) + (k : F) * (median_of demand / 1000)) *
                cdf capacity (quantile demand (1 / 1000) + (k : F) * (median_of demand / 1000)) +
               pdf demand (quantile demand (1 / 1000) + (k : F) * (median_of demand / 1000) +
                  median_of demand / 1000) *
                cdf capacity (quantile demand (1 / 1000) + (k : F) * (median_of demand / 1000) +
                  median_of demand / 1000)) / 2) := by
  have hdelta : 0 < median_of demand / 1000 := div_pos hmed (by norm_num)
  have hex : ∃ k : Nat, quantile demand (999 / 1000) ≤
      quantile demand (1 / 1000) + (k : F) * (median_of demand / 1000) := by
    obtain ⟨k, hk⟩ := exists_nat_ge
      ((quantile demand (999 / 1000) - quantile demand (1 / 1000)) / (median_of demand / 1000))
    refine ⟨k, ?_⟩
    rw [div_le_iff₀ hdelta] at hk
    linarith
  classical
  refine ⟨Nat.find hex, ?_, Nat.find_spec hex, ?_⟩
  · intro k hk
    exact not_le.1 (Nat.find_min hex hk)
  · intro fuel hf
    unfold greaterProbability
    simp only
    rw [greaterProbabilityWhile_sum _ _ _ _ (Nat.find hex) fuel 0 _ hf
      (fun k hk => not_le.1 (Nat.find_min hex hk)) (Nat.find_spec hex), zero_add]

/-- An instance of `greaterProbability_terminates`: the uniform distribution on `[1, 3]` as
demand
(`quantile p = 1 + 2 p`, `median = 2`). -/
theorem greaterProbability_terminates_witness :
    ∃ K : Nat,
      (∀ k, k < K → (1 + 2 * (1 / 1000 : ℚ)) + (k : ℚ) * (2 / 1000) <
        1 + 2 * (999 / 1000 : ℚ)) ∧
      1 + 2 * (999 / 1000 : ℚ) ≤ (1 + 2 * (1 / 1000 : ℚ)) + (K : ℚ) * (2 / 1000) ∧
      ∀ fuel, K < fuel →
        greaterProbability (D := Unit) (fun _ p => 1 + 2 * p) (fun _ _ => 1 / 2)
          (fun _ x => (x - 1) / 2) (fun _ => 2) fuel () () =
          Except.ok (∑ k in Finset.range K,
            (2 : ℚ) / 1000 *
              (1 / 2 * (((1 + 2 * (1 / 1000 : ℚ)) + (k : ℚ) * (2 / 1000) - 1) / 2) +
               1 / 2 * (((1 + 2 * (1 / 1000 : ℚ)) + (k : ℚ) * (2 / 1000) + 2 / 1000 - 1) / 2))
              / 2) :=
  greaterProbability_terminates (D := Unit) (fun _ p => 1 + 2 * p) (fun _ _ => 1 / 2)
    (fun _ x => (x - 1) / 2) (fun _ => 2) () () (by norm_num)

/-! ## Proofs: regularize, sample count and regular input -/

section RegularizeCount

variable {F : Type} [LinearOrderedField F]

/-- Started at or after `time[i]`, the `while` loop for segment `i` stops beyond
`time[i+1]` and emits nothing beyond `time[i+1]`. -/
theorem regularizeWhile_cover (acc time : List F) (dt : F) (hdt : 0 < dt) (i : Nat)
    (ti ti1 : F) (hti : time[i]? = some ti) (hti1 : time[i + 1]? = some ti1) :
    ∀ (fuel : Nat) (st st2 : RegState F), ti ≤ st.cur_tme →
      (∀ t ∈ st.reg_tme, t ≤ ti1) →
      regularizeWhile acc time dt i fuel st = Except.ok st2 →
      ti1 < st2.cur_tme ∧ ∀ t ∈ st2.reg_tme, t ≤ ti1
  | 0, st, st2, _, _, h => by simp [regularizeWhile] at h
  | fuel + 1, st, st2, h1, hall, h => by
    by_cases h2 : st.cur_tme ≤ ti1
    · rw [regularizeWhile] at h
      simp only [(rd_eq_ok_iff _ _ _).2 hti, (rd_eq_ok_iff _ _ _).2 hti1, bind, Except.bind,
        ge_iff_le, h1, h2, if_true] at h
      cases hai : rd acc i with
      | error e => simp [hai] at h
      | ok ai =>
        simp only [hai] at h
        cases hai1 : rd acc (i + 1) with
        | error e => simp [hai1] at h
        | ok ai1 =>
          simp only [hai1] at h
          refine regularizeWhile_cover acc time dt hdt i ti ti1 hti hti1 fuel _ st2 ?_ ?_ h
          · simp only
            linarith
          · intro t ht
            simp only [List.mem_append, List.mem_singleton] at ht
            rcases ht with ht | rfl
            · exact hall t ht
            · exact h2
    · rw [regularizeWhile_succ_of_not_cond acc time dt i fuel st ti ti1 hti hti1
        (fun hc => h2 hc.2)] at h
      simp only [Except.ok.injEq] at h
      subst h
      exact ⟨not_le.1 h2, hall⟩

/-- After the segments `0 .. k-1` the loop variable is at or beyond `time[k]` (beyond it
when `k >= 1`) and nothing beyond `time[k]` has been emitted. -/
theorem regularizeFor_cover (acc time : List F) (dt t0 : F) (hdt : 0 < dt)
    (hinc : time.Sorted (· < ·)) (ht0 : time[0]? = some t0) (fuel : Nat) :
    ∀ (k : Nat) (st2 : RegState F), k < time.length →
      (List.range k).foldlM (fun st i => regularizeWhile acc time dt i fuel st)
        ({ reg_acc := [], reg_tme := [], cur_tme := t0 } : RegState F) = Except.ok st2 →
      ∃ tk, time[k]? = some tk ∧ tk ≤ st2.cur_tme ∧ (∀ t ∈ st2.reg_tme, t ≤ tk) ∧
        (1 ≤ k → tk < st2.cur_tme)
  | 0, st2, _, h => by
    simp only [List.range_zero, List.foldlM_nil, pure, Except.pure, Except.ok.injEq] at h
    subst h
    exact ⟨t0, ht0, le_refl _, fun t ht => by simp at ht, fun h => absurd h (by decide)⟩
  | k + 1, st2, hk, h => by
    rw [List.range_succ, List.foldlM_append] at h
    cases h1 : (List.range k).foldlM (fun st i => regularizeWhile acc time dt i fuel st)
        ({ reg_acc := [], reg_tme := [], cur_tme := t0 } : RegState F) with
    | error e => simp [h1, bind, Except.bind] at h
    | ok st1 =>
      simp only [h1, bind, Except.bind, List.foldlM_cons, List.foldlM_nil] at h
      cases h2 : regularizeWhile acc time dt k fuel st1 with
      | error e => simp [h2] at h
      | ok st3 =>
        simp only [h2, pure, Except.pure, Except.ok.injEq] at h
        subst h
        obtain ⟨tk, htk, hle, hall, _⟩ :=
          regularizeFor_cover acc time dt t0 hdt hinc ht0 fuel k st1 (by omega) h1
        have htk1 : time[k + 1]? = some time[k + 1] := List.getElem?_eq_getElem hk
        have hlt : tk < time[k + 1] :=
          sorted_lt_getElem? time hinc k (k + 1) _ _ (Nat.lt_succ_self k) htk htk1
        obtain ⟨hc, hall2⟩ := regularizeWhile_cover acc time dt hdt k tk _ htk htk1 fuel st1
          st3 hle (fun t ht => le_trans (hall t ht) (le_of_lt hlt)) h2
        exact ⟨_, htk1, le_of_lt hc, hall2, fun _ => hc⟩

/-- The grid `t0, t0 + dt, ...` is strictly increasing. -/
theorem grid_sorted (t0 dt : F) (hdt : 0 < dt) (l : List F)
    (hgrid : ∀ k : Nat, k < l.length → l[k]? = some (t0 + (k : F) * dt)) :
    l.Sorted (· < ·) := by
  rw [List.Sorted, List.pairwise_iff_getElem]
  intro i j hi hj hij
  have hgi := hgrid i hi
  have hgj := hgrid j hj
  rw [List.getElem?_eq_getElem hi] at hgi
  rw [List.getElem?_eq_getElem hj] at hgj
  simp only [Option.some.injEq] at hgi hgj
  rw [hgi, hgj]
  have : (i : F) < (j : F) := by exact_mod_cast hij
  nlinarith

/-- Total correctness of `regularize` with coverage: on a valid input the call returns one
result; its times are the grid points `t0 + k dt` in order, the last of them is not beyond
the last input time `tlast`, and the next grid point is beyond it. -/
theorem regularize_full [Archimedean F] (acc time : List F) (dt t0 tlast : F)
    (hlen : acc.length = time.length) (h2 : 2 ≤ time.length)
    (hinc : time.Sorted (· < ·)) (hdt : 0 < dt) (ht0 : time[0]? = some t0)
    (hlast : time[time.length - 1]? = some tlast) :
    ∃ (N : Nat) (st : RegState F),
      (∀ fuel, N ≤ fuel → regularize fuel acc time dt = Except.ok [st.reg_tme, st.reg_acc]) ∧
      (∀ fuel r, regularize fuel acc time dt = Except.ok r → r = [st.reg_tme, st.reg_acc]) ∧
      RegInv acc time dt t0 st ∧ 1 ≤ st.reg_tme.length ∧
      (∀ t ∈ st.reg_tme, t ≤ tlast) ∧ tlast < t0 + (st.reg_tme.length : F) * dt := by
  have ht1 : time[1]? = some time[1] := List.getElem?_eq_getElem (by omega)
  have h01 : t0 ≤ time[1] :=
    le_of_lt (sorted_lt_getElem? time hinc 0 1 _ _ Nat.zero_lt_one ht0 ht1)
  obtain ⟨N1, st, hN1, huniq, hinv, hpos⟩ :=
    regularize_spec acc time dt t0 time[1] hlen ht0 ht1 h01 hdt
  have hrange : ∀ i ∈ List.range (time.length - 1),
      i + 1 < time.length ∧ i + 1 < acc.length := by
    intro i hi
    rw [List.mem_range] at hi
    omega
  obtain ⟨N2, st2, hN2⟩ := regularizeFor_terminates acc time dt hdt _ hrange
    ({ reg_acc := [], reg_tme := [], cur_tme := t0 } : RegState F)
  have hfold := hN2 (max N1 N2) (le_max_right _ _)
  have hinv2 := (regularizeFor_inv acc time dt t0 _ _ _ st2 (RegInv.init acc time dt t0)
    hfold).1
  have hreg := hN1 (max N1 N2) (le_max_left _ _)
  rw [regularize_eq acc time dt t0 _ ht0, hfold] at hreg
  simp only [Except.map, Except.ok.injEq, List.cons.injEq, and_true] at hreg
  obtain ⟨tk, htk, _, hall, hbeyond⟩ := regularizeFor_cover acc time dt t0 hdt hinc ht0 _
    (time.length - 1) st2 (by omega) hfold
  rw [hlast] at htk
  simp only [Option.some.injEq] at htk
  subst htk
  refine ⟨N1, st, hN1, huniq, hinv, hpos, ?_, ?_⟩
  · rw [← hreg.1]; exact hall
  · rw [← hreg.1, ← hinv2.cur_eq]
    exact hbeyond (by omega)

end RegularizeCount

/-- C18. `regularize`, sample count and coverage: on every valid input the call returns
(no denominator `time[i+1] - time[i]` is zero) exactly `floor((time[m-1] - time[0]) / dt) + 1`
samples; the emitted times are the grid points `time[0] + k*dt` in order, every grid point
that is `<= time[m-1]` occurs exactly once, nothing else is emitted, and `time[m-1]` is
emitted when it lies on the grid. -/
theorem regularize_sample_count {F : Type} [LinearOrderedField F] [FloorRing F]
    (acc time : List F) (dt : F) (hlen : acc.length = time.length) (h2 : 2 ≤ time.length)
    (hinc : time.Sorted (· < ·)) (hdt : 0 < dt) :
    ∃ (N : Nat) (reg_tme reg_acc : List F) (t0 tlast : F),
      time[0]? = some t0 ∧ time[time.length - 1]? = some tlast ∧
      (∀ fuel, N ≤ fuel → regularize fuel acc time dt = Except.ok [reg_tme, reg_acc]) ∧
      (∀ fuel r, regularize fuel acc time dt = Except.ok r → r = [reg_tme, reg_acc]) ∧
      (∀ (i : Nat) (ti ti1 : F), time[i]? = some ti → time[i + 1]? = some ti1 →
        ti1 - ti ≠ 0) ∧
      reg_acc.length = reg_tme.length ∧
      (reg_tme.length : ℤ) = ⌊(tlast - t0) / dt⌋ + 1 ∧
      reg_tme = (List.range reg_tme.length).map (fun k : Nat => t0 + (k : F) * dt) ∧
      (∀ k : Nat, t0 + (k : F) * dt ≤ tlast → reg_tme.count (t0 + (k : F) * dt) = 1) ∧
      (∀ t ∈ reg_tme, t ≤ tlast ∧ ∃ k : Nat, t = t0 + (k : F) * dt) ∧
      ((∃ k : Nat, tlast = t0 + (k : F) * dt) → tlast ∈ reg_tme) := by
  have ht0 : time[0]? = some time[0] := List.getElem?_eq_getElem (by omega)
  have hlast : time[time.length - 1]? = some time[time.length - 1] :=
    List.getElem?_eq_getElem (by omega)
  obtain ⟨N, st, hN, huniq, hinv, hpos, hall, hbeyond⟩ :=
    regularize_full acc time dt _ _ hlen h2 hinc hdt ht0 hlast
  have hsorted := grid_sorted time[0] dt hdt st.reg_tme hinv.grid
  have hmem : ∀ k : Nat, time[0] + (k : F) * dt ≤ time[time.length - 1] →
      time[0] + (k : F) * dt ∈ st.reg_tme := by
    intro k hk
    have hklt : k < st.reg_tme.length := by
      by_contra hge
      have hge2 : ((st.reg_tme.length : Nat) : F) ≤ (k : F) := by
        exact_mod_cast not_lt.1 hge
      nlinarith
    exact List.getElem?_mem (hinv.grid k hklt)
  refine ⟨N, st.reg_tme, st.reg_acc, _, _, ht0, hlast, hN, huniq, ?_, hinv.len_eq.symm, ?_, ?_,
    ?_, ?_, ?_⟩
  · intro i ti ti1 hti hti1
    exact ne_of_gt (sub_pos.2
      (sorted_lt_getElem? time hinc i (i + 1) _ _ (Nat.lt_succ_self i) hti hti1))
  · have hlastmem : time[0] + ((st.reg_tme.length - 1 : Nat) : F) * dt ≤
        time[time.length - 1] :=
      hall _ (List.getElem?_mem (hinv.grid (st.reg_tme.length - 1) (by omega)))
    have hcast : ((st.reg_tme.length - 1 : Nat) : F) = (st.reg_tme.length : F) - 1 := by
      rw [Nat.cast_sub hpos]; simp
    have hfloor : ⌊(time[time.length - 1] - time[0]) / dt⌋ = (st.reg_tme.length : ℤ) - 1 := by
      rw [Int.floor_eq_iff]
      constructor
      · rw [le_div_iff₀ hdt]
        push_cast
        rw [hcast] at hlastmem
        linarith
      · rw [div_lt_iff₀ hdt]
        push_cast
        linarith
    rw [hfloor]; ring
  · apply List.ext_getElem?
    intro k
    by_cases hk : k < st.reg_tme.length
    · rw [hinv.grid k hk, List.getElem?_map, List.getElem?_range hk]
      rfl
    · rw [List.getElem?_eq_none (not_lt.1 hk), List.getElem?_eq_none (by simpa using hk)]
  · intro k hk
    exact List.count_eq_one_of_mem hsorted.nodup (hmem k hk)
  · intro t ht
    refine ⟨hall t ht, ?_⟩
    obtain ⟨k, hk⟩ := List.mem_iff_getElem?.1 ht
    have hklt : k < st.reg_tme.length := (List.getElem?_eq_some.1 hk).1
    rw [hinv.grid k hklt] at hk
    exact ⟨k, (Option.some.inj hk).symm⟩
  · rintro ⟨k, hk⟩
    rw [hk]
    exact hmem k (le_of_eq hk.symm)

/-- Witness for C18: `time = [0, 1, 3]`, `accel = [0, 2, 6]`, `dt = 1/2`, together with
the count 7 and the emitted times that the code gives there. -/
theorem regularize_sample_count_witness :
    (∃ (N : Nat) (reg_tme reg_acc : List ℚ) (t0 tlast : ℚ),
      ([0, 1, 3] : List ℚ)[0]? = some t0 ∧
      ([0, 1, 3] : List ℚ)[([0, 1, 3] : List ℚ).length - 1]? = some tlast ∧
      (∀ fuel, N ≤ fuel →
        regularize fuel [0, 2, 6] [0, 1, 3] (1 / 2) = Except.ok [reg_tme, reg_acc]) ∧
      (∀ fuel r, regularize fuel [0, 2, 6] [0, 1, 3] (1 / 2) = Except.ok r →
        r = [reg_tme, reg_acc]) ∧
      (∀ (i : Nat) (ti ti1 : ℚ), ([0, 1, 3] : List ℚ)[i]? = some ti →
        ([0, 1, 3] : List ℚ)[i + 1]? = some ti1 → ti1 - ti ≠ 0) ∧
      reg_acc.length = reg_tme.length ∧
      (reg_tme.length : ℤ) = ⌊(tlast - t0) / (1 / 2)⌋ + 1 ∧
      reg_tme = (List.range reg_tme.length).map (fun k : Nat => t0 + (k : ℚ) * (1 / 2)) ∧
      (∀ k : Nat, t0 + (k : ℚ) * (1 / 2) ≤ tlast →
        reg_tme.count (t0 + (k : ℚ) * (1 / 2)) = 1) ∧
      (∀ t ∈ reg_tme, t ≤ tlast ∧ ∃ k : Nat, t = t0 + (k : ℚ) * (1 / 2)) ∧
      ((∃ k : Nat, tlast = t0 + (k : ℚ) * (1 / 2)) → tlast ∈ reg_tme)) ∧
    regularize 10 [(0 : ℚ), 2, 6] [0, 1, 3] (1 / 2) =
      Except.ok [[0, 1 / 2, 1, 3 / 2, 2, 5 / 2, 3], [0, 1, 2, 3, 4, 5, 6]] :=
  ⟨regularize_sample_count [0, 2, 6] [0, 1, 3] (1 / 2) rfl (by decide)
    (by simp [List.Sorted]) (by norm_num), by decide!⟩

section RegularizeRegular

variable {F : Type} [LinearOrderedField F]

/-- A vector whose entries are the grid points in order is the grid. -/
theorem grid_eq_map (t0 dt : F) (l : List F)
    (hgrid : ∀ k : Nat, k < l.length → l[k]? = some (t0 + (k : F) * dt)) :
    l = (List.range l.length).map (fun k : Nat => t0 + (k : F) * dt) := by
  apply List.ext_getElem?
  intro k
  by_cases hk : k < l.length
  · rw [hgrid k hk, List.getElem?_map, List.getElem?_range hk]
    rfl
  · rw [List.getElem?_eq_none (not_lt.1 hk), List.getElem?_eq_none (by simpa using hk)]

/-- On a series that is already regular with step `dt`, `regularize` returns its input. -/
theorem regularize_regular [Archimedean F] (acc : List F) (t0 dt : F) (hdt : 0 < dt)
    (hm : 2 ≤ acc.length) :
    ∃ N : Nat,
      (∀ fuel, N ≤ fuel →
        regularize fuel acc ((List.range acc.length).map (fun i : Nat => t0 + (i : F) * dt)) dt =
          Except.ok [(List.range acc.length).map (fun i : Nat => t0 + (i : F) * dt), acc]) ∧
      (∀ fuel r,
        regularize fuel acc ((List.range acc.length).map (fun i : Nat => t0 + (i : F) * dt)) dt =
          Except.ok r →
        r = [(List.range acc.length).map (fun i : Nat => t0 + (i : F) * dt), acc]) := by
  have htime : ∀ (i : Nat) (x : F),
      ((List.range acc.length).map (fun i : Nat => t0 + (i : F) * dt))[i]? = some x ↔
        i < acc.length ∧ t0 + (i : F) * dt = x :=
    fun i x => getElem?_map_range _ _ i x
  have hlen : acc.length =
      ((List.range acc.length).map (fun i : Nat => t0 + (i : F) * dt)).length := by simp
  have hinc : ((List.range acc.length).map (fun i : Nat => t0 + (i : F) * dt)).Sorted
      (· < ·) := by
    apply grid_sorted t0 dt hdt
    intro k hk
    rw [htime]
    exact ⟨by simpa using hk, rfl⟩
  have ht0 : ((List.range acc.length).map (fun i : Nat => t0 + (i : F) * dt))[0]? =
      some (t0 + ((0 : Nat) : F) * dt) := (htime 0 _).2 ⟨by omega, rfl⟩
  have hlast : ((List.range acc.length).map (fun i : Nat => t0 + (i : F) * dt))[
      ((List.range acc.length).map (fun i : Nat => t0 + (i : F) * dt)).length - 1]? =
      some (t0 + ((acc.length - 1 : Nat) : F) * dt) := by
    rw [← hlen]
    exact (htime _ _).2 ⟨by omega, rfl⟩
  obtain ⟨N, st, hN, huniq, hinv, hpos, hall, hbeyond⟩ :=
    regularize_full acc _ dt _ _ hlen (by rw [← hlen]; exact hm) hinc hdt ht0 hlast
  have hz : t0 + ((0 : Nat) : F) * dt = t0 := by simp
  rw [hz] at hinv hbeyond
  have hLm : st.reg_tme.length = acc.length := by
    apply le_antisymm
    · have h1 := hall _ (List.getElem?_mem (hinv.grid (st.reg_tme.length - 1) (by omega)))
      have h2 : ((st.reg_tme.length - 1 : Nat) : F) ≤ ((acc.length - 1 : Nat) : F) := by
        by_contra hgt
        have := not_le.1 hgt
        nlinarith
      have h3 : st.reg_tme.length - 1 ≤ acc.length - 1 := by exact_mod_cast h2
      omega
    · have h2 : ((acc.length - 1 : Nat) : F) < (st.reg_tme.length : F) := by
        by_contra hge
        have := not_lt.1 hge
        nlinarith
      have h3 : acc.length - 1 < st.reg_tme.length := by exact_mod_cast h2
      omega
  have htme : st.reg_tme = (List.range acc.length).map (fun i : Nat => t0 + (i : F) * dt) := by
    rw [← hLm]
    exact grid_eq_map t0 dt st.reg_tme hinv.grid
  have hacc : st.reg_acc = acc := by
    apply List.ext_getElem?
    intro k
    by_cases hk : k < acc.length
    · have hk1 : k < st.reg_tme.length := by omega
      have hk2 : k < st.reg_acc.length := by rw [← hinv.len_eq]; exact hk1
      obtain ⟨i, ti, ti1, ai, ai1, hti, hti1, hai, hai1, hle, hle1, ha⟩ :=
        hinv.interp k _ _ (hinv.grid k hk1) (List.getElem?_eq_getElem hk2)
      obtain ⟨_, rfl⟩ := (htime _ _).1 hti
      obtain ⟨_, rfl⟩ := (htime _ _).1 hti1
      have hik : i ≤ k := by
        have : (i : F) ≤ (k : F) := by
          by_contra hgt
          have := not_le.1 hgt
          nlinarith
        exact_mod_cast this
      have hki : k ≤ i + 1 := by
        have : (k : F) ≤ ((i + 1 : Nat) : F) := by
          by_contra hgt
          have := not_le.1 hgt
          nlinarith
        exact_mod_cast this
      rw [List.getElem?_eq_getElem hk2, ha]
      rcases Nat.lt_or_ge i k with hlt | hge
      · have hk' : k = i + 1 := by omega
        subst hk'
        rw [hai1]
        congr 1
        have hnum : t0 + ((i + 1 : Nat) : F) * dt - (t0 + (i : F) * dt) = dt := by
          push_cast; ring
        rw [hnum, div_self (ne_of_gt hdt)]
        ring
      · have hk' : k = i := by omega
        subst hk'
        rw [hai]
        congr 1
        simp
    · have hk2 : st.reg_acc.length ≤ k := by rw [← hinv.len_eq, hLm]; exact not_lt.1 hk
      rw [List.getElem?_eq_none hk2, List.getElem?_eq_none (not_lt.1 hk)]
  rw [htme, hacc] at hN huniq
  exact ⟨N, hN, huniq⟩

end RegularizeRegular

/-- C19. `regularize` is the identity on an already regular series: for `dt > 0`, any `t0`
and `accel` of length `m >= 2`, with `time[i] = t0 + i*dt`, the call returns
`(time, accel)` unchanged; and for any valid input, `regularize` applied to its own output
with the same `dt` returns that output whenever the output has at least 2 samples. -/
theorem regularize_identity_on_regular {F : Type} [LinearOrderedField F] [Archimedean F]
    (acc : List F) (t0 dt : F) (hdt : 0 < dt) (hm : 2 ≤ acc.length) :
    (∃ N : Nat,
      (∀ fuel, N ≤ fuel →
        regularize fuel acc ((List.range acc.length).map (fun i : Nat => t0 + (i : F) * dt)) dt =
          Except.ok [(List.range acc.length).map (fun i : Nat => t0 + (i : F) * dt), acc]) ∧
      (∀ fuel r,
        regularize fuel acc ((List.range acc.length).map (fun i : Nat => t0 + (i : F) * dt)) dt =
          Except.ok r →
        r = [(List.range acc.length).map (fun i : Nat => t0 + (i : F) * dt), acc])) ∧
    (∀ (acc0 time0 reg_tme reg_acc : List F) (fuel0 : Nat),
      acc0.length = time0.length → 2 ≤ time0.length → time0.Sorted (· < ·) →
      regularize fuel0 acc0 time0 dt = Except.ok [reg_tme, reg_acc] →
      2 ≤ reg_tme.length →
      ∃ N : Nat,
        (∀ fuel, N ≤ fuel →
          regularize fuel reg_acc reg_tme dt = Except.ok [reg_tme, reg_acc]) ∧
        (∀ fuel r, regularize fuel reg_acc reg_tme dt = Except.ok r →
          r = [reg_tme, reg_acc])) := by
  refine ⟨regularize_regular acc t0 dt hdt hm, ?_⟩
  intro acc0 time0 reg_tme reg_acc fuel0 hlen h2 hinc hret hlen2
  have ht0 : time0[0]? = some time0[0] := List.getElem?_eq_getElem (by omega)
  have ht1 : time0[1]? = some time0[1] := List.getElem?_eq_getElem (by omega)
  have h01 : time0[0] ≤ time0[1] :=
    le_of_lt (sorted_lt_getElem? time0 hinc 0 1 _ _ Nat.zero_lt_one ht0 ht1)
  obtain ⟨_, st, _, huniq, hinv, _⟩ :=
    regularize_spec acc0 time0 dt time0[0] time0[1] hlen ht0 ht1 h01 hdt
  have heq := huniq fuel0 _ hret
  simp only [List.cons.injEq, and_true] at heq
  obtain ⟨h1, h2'⟩ := heq
  have hgrid : reg_tme = (List.range reg_acc.length).map
      (fun i : Nat => time0[0] + (i : F) * dt) := by
    have hl : reg_acc.length = reg_tme.length := by rw [h1, h2']; exact hinv.len_eq.symm
    rw [hl]
    apply grid_eq_map
    rw [h1]
    exact hinv.grid
  have hlacc : 2 ≤ reg_acc.length := by
    have hl : reg_acc.length = reg_tme.length := by rw [h1, h2']; exact hinv.len_eq.symm
    omega
  have := regularize_regular reg_acc time0[0] dt hdt hlacc
  rw [← hgrid] at this
  exact this

/-- Witness for C19: `accel = [5, -1, 2]` on the regular times `7/2 + i/4`. -/
theorem regularize_identity_on_regular_witness :
    (∃ N : Nat,
      (∀ fuel, N ≤ fuel →
        regularize fuel [5, -1, 2] ((List.range ([5, -1, 2] : List ℚ).length).map
            (fun i : Nat => (7 / 2 : ℚ) + (i : ℚ) * (1 / 4))) (1 / 4) =
          Except.ok [(List.range ([5, -1, 2] : List ℚ).length).map
            (fun i : Nat => (7 / 2 : ℚ) + (i : ℚ) * (1 / 4)), [5, -1, 2]]) ∧
      (∀ fuel r,
        regularize fuel [5, -1, 2] ((List.range ([5, -1, 2] : List ℚ).length).map
            (fun i : Nat => (7 / 2 : ℚ) + (i : ℚ) * (1 / 4))) (1 / 4) = Except.ok r →
        r = [(List.range ([5, -1, 2] : List ℚ).length).map
            (fun i : Nat => (7 / 2 : ℚ) + (i : ℚ) * (1 / 4)), [5, -1, 2]])) ∧
    (∀ (acc0 time0 reg_tme reg_acc : List ℚ) (fuel0 : Nat),
      acc0.length = time0.length → 2 ≤ time0.length → time0.Sorted (· < ·) →
      regularize fuel0 acc0 time0 (1 / 4) = Except.ok [reg_tme, reg_acc] →
      2 ≤ reg_tme.length →
      ∃ N : Nat,
        (∀ fuel, N ≤ fuel →
          regularize fuel reg_acc reg_tme (1 / 4) = Except.ok [reg_tme, reg_acc]) ∧
        (∀ fuel r, regularize fuel reg_acc reg_tme (1 / 4) = Except.ok r →
          r = [reg_tme, reg_acc])) :=
  regularize_identity_on_regular [5, -1, 2] (7 / 2) (1 / 4) (by norm_num) (by decide)

end MastodonUtils
